import Mathlib

/-!
Shallow embedding of the Robin Hood hash table from `src/hashtable.h`
(`arch.h` provides `arch_ilog2`, `arch_strhash`, `arch_strcmp`, `arch_rand`).

Machine integers (`arch_t`, i.e. `size_t`, 64 bits) are modelled as `Nat`
with explicit `% 2^64` where the C code can wrap (the djb2 hash).  The
`union { status, dist }` of `struct pair` is modelled as a single `Nat`
field `dist`; the status sentinels `PAIR_RESERVED/REMOVED/FREE` are the
values `(arch_t)(-3) .. (arch_t)(-1)`, i.e. `2^64-3 .. 2^64-1`, exactly as
in the C enum, and all comparisons on them are the C unsigned comparisons.
Keys (null-terminated byte strings compared with `strcmp`) are modelled as
`List Nat` of their bytes, compared by list equality.  `arch_rand` values
are supplied explicitly: `hash_table_init` takes the seed as an argument
and the operations that can resize consume a list of future seeds.
`malloc` is assumed to succeed (allocation failure is not modelled).
The unbounded `for (;; p++, cur.dist++)` loop of `hash_table_insert` and
the mutual recursion insert <-> resize are expressed with an explicit fuel
parameter; `none` means the fuel ran out, never a result of the code.
-/

def UMAX : Nat := 2 ^ 64

def PAIR_RESERVED : Nat := UMAX - 3

def PAIR_REMOVED : Nat := UMAX - 2

def PAIR_FREE : Nat := UMAX - 1

def DIST_IDEAL : Nat := 0

structure Pair where
  key : List Nat
  val : Nat
  dist : Nat
deriving Repr, DecidableEq

/-- Stands for the uninitialized key/val of a freshly malloc'ed slot whose
`status` has been set to `PAIR_FREE`; the code never reads key/val of a
free slot. -/
def noPair : Pair := { key := [], val := 0, dist := PAIR_FREE }

def pair_init (key : List Nat) (val : Nat) : Pair :=
  { key := key, val := val, dist := 0 }

/-- djb2: `h = 5381; while (*str) h = ((h << 5) + h) ^ *str++;` on a 64-bit
`arch_t`, so each step is `(h * 33) mod 2^64` xor the next byte. -/
def arch_strhash (s : List Nat) : Nat :=
  s.foldl (fun h b => ((h * 33) % UMAX) ^^^ b) 5381

/-- Fuelled floor-log2; `ilog2Go n n` computes `⌊log2 n⌋` for `n ≥ 1`. -/
def ilog2Go : Nat → Nat → Nat
  | 0, _ => 0
  | f + 1, n => if 2 ≤ n then ilog2Go f (n / 2) + 1 else 0

/-- `arch_ilog2 n = 8*sizeof(arch_t) - clz(n) - 1`, i.e. `⌊log2 n⌋` for
`1 ≤ n < 2^64` (`clz(0)` is undefined behaviour of the gcc builtin, so the
model's value at 0 is irrelevant). -/
def arch_ilog2 (n : Nat) : Nat := ilog2Go n n

structure HashTable where
  pairs : Array Pair
  size : Nat
  totalsize : Nat
  maxpairs : Nat
  maxprobes : Nat
  numpairs : Nat
  hashseed : Nat
deriving Repr, DecidableEq

/-- `hash_table_init`: `maxprobes = ilog2(size)`, `totalsize = size + maxprobes`,
all slots' status set to `PAIR_FREE`, `numpairs = 0`, seed from `arch_rand`
(here an explicit argument). No parameter validation of any kind. -/
def hash_table_init (size maxpairs seed : Nat) : HashTable :=
  let maxprobes := arch_ilog2 size
  let totalsize := size + maxprobes
  { pairs := Array.mkArray totalsize noPair
    size := size
    totalsize := totalsize
    maxpairs := maxpairs
    maxprobes := maxprobes
    numpairs := 0
    hashseed := seed }

/-- Home slot: `(arch_strhash(key) ^ ht->hashseed) % ht->size`. -/
def homeIndex (t : HashTable) (key : List Nat) : Nat :=
  (arch_strhash key ^^^ t.hashseed) % t.size

/-- Loop of `hash_table_search`:
`for (dist = 0; dist < maxprobes; dist++, p++) if (p->dist == dist) if (!strcmp(p->key, key)) return p;`
`rem` counts the remaining iterations (`maxprobes - dist`). Returns the found
slot index (the returned pointer) and, second, the list of slot indices the
loop read. -/
def searchFrom (t : HashTable) (key : List Nat) (idx : Nat) :
    Nat → Nat → Option Nat × List Nat
  | _, 0 => (none, [])
  | dist, rem + 1 =>
    let p := t.pairs.getD (idx + dist) noPair
    if p.dist = dist ∧ p.key = key then (some (idx + dist), [idx + dist])
    else
      let r := searchFrom t key idx (dist + 1) rem
      (r.1, (idx + dist) :: r.2)

def hash_table_search (t : HashTable) (key : List Nat) : Option Nat :=
  (searchFrom t key (homeIndex t key) 0 t.maxprobes).1

/-- Value stored for a key, read through `hash_table_search`. -/
def searchVal (t : HashTable) (key : List Nat) : Option Nat :=
  (hash_table_search t key).map (fun i => (t.pairs.getD i noPair).val)

/-- The search loop's match condition at slot `i` for probe distance `d`:
`p->dist == d && !strcmp(p->key, key)`. -/
def matchAt (t : HashTable) (key : List Nat) (i d : Nat) : Prop :=
  (t.pairs.getD i noPair).dist = d ∧ (t.pairs.getD i noPair).key = key

instance (t : HashTable) (key : List Nat) (i d : Nat) :
    Decidable (matchAt t key i d) := by
  unfold matchAt; infer_instance

inductive StepResult where
  | placed (t : HashTable) (slot : Nat)
  | dup
  | needResize (t : HashTable) (cur : Pair)
  | next (t : HashTable) (cur : Pair)
deriving Repr, DecidableEq

/-- The checks shared by the swap and no-swap paths of the loop body (the
code after the first `if`/`else if` of the insert loop): `p'` and `cur'`
are the slot content and carried pair after the optional swap, `mp` the
table's `maxprobes`:
```
if (cur.dist >= ht->maxprobes) { resize; cur.dist = DIST_IDEAL; goto begin; }
else if (p->dist == cur.dist) if (!arch_strcmp(p->key, cur.key)) return NULL;
```
-/
def insertStepPost (t : HashTable) (p' cur' : Pair) (mp : Nat) : StepResult :=
  if cur'.dist ≥ mp then .needResize t cur'
  else if p'.dist = cur'.dist ∧ p'.key = cur'.key then .dup
  else .next t cur'

/-- One iteration of `hash_table_insert`'s probe loop body, at slot `i`:
```
if (p->status == PAIR_FREE) { *p = cur, ht->numpairs++; return p; }
else if (p->dist > cur.dist) { buf = *p; *p = cur, cur = buf; }
if (cur.dist >= ht->maxprobes) { resize; cur.dist = DIST_IDEAL; goto begin; }
else if (p->dist == cur.dist) if (!arch_strcmp(p->key, cur.key)) return NULL;
```
After a swap the slot holds `cur` and the walk carries the displaced `p`;
`next` means the loop continues with `p++, cur.dist++` (done by the
caller). -/
def insertStep (t : HashTable) (cur : Pair) (i : Nat) : StepResult :=
  let p := t.pairs.getD i noPair
  if p.dist = PAIR_FREE then
    .placed { t with pairs := t.pairs.setD i cur, numpairs := t.numpairs + 1 } i
  else if p.dist > cur.dist then
    insertStepPost { t with pairs := t.pairs.setD i cur } cur p t.maxprobes
  else
    insertStepPost t p cur t.maxprobes

inductive WalkResult where
  | placed (t : HashTable) (slot : Nat)
  | dup (t : HashTable)
  | needResize (t : HashTable) (cur : Pair)
deriving Repr

/-- The probe loop of one insertion attempt (between `begin:` and its exit),
iterating `insertStep` from slot `i`. Also returns the list of slot indices
the loop read. The fuel only caps the iteration count; `maxprobes + 2` is
always enough because `cur.dist` strictly increases and the loop stops once
it reaches `maxprobes`. -/
def insertWalk : Nat → HashTable → Pair → Nat → Option (WalkResult × List Nat)
  | 0, _, _, _ => none
  | fuel + 1, t, cur, i =>
    match insertStep t cur i with
    | .placed t' s => some (.placed t' s, [i])
    | .dup => some (.dup t, [i])
    | .needResize t' c => some (.needResize t' c, [i])
    | .next t' c =>
      match insertWalk fuel t' { c with dist := c.dist + 1 } (i + 1) with
      | none => none
      | some (r, tr) => some (r, i :: tr)

/-- The slots `hash_table_resize` re-inserts: every slot with
`status != PAIR_FREE`, in array order, with `dist` reset to `DIST_IDEAL`. -/
def liveItems (t : HashTable) : List Pair :=
  (t.pairs.toList.filter (fun p => p.dist ≠ PAIR_FREE)).map
    (fun p => { p with dist := DIST_IDEAL })

/-- Call frames of the mutually recursive `hash_table_insert` /
`hash_table_resize`: `ins` is a full insert call (occupancy pre-check then
the `begin:` loop), `go` the `begin:` retry loop alone, `rsz` a resize call,
`rlist` the re-insertion loop inside resize. -/
inductive Op where
  | ins (t : HashTable) (cur : Pair) (seeds : List Nat)
  | go (t : HashTable) (cur : Pair) (seeds : List Nat)
  | rsz (t : HashTable) (seeds : List Nat)
  | rlist (t : HashTable) (seeds : List Nat) (items : List Pair)

inductive OpRes where
  | insR (r : Option Nat) (t : HashTable) (seeds : List Nat)
  | rszR (t : HashTable) (seeds : List Nat)

/-- Executes one call frame with the given fuel; every nested call runs on
`fuel - 1`, so the recursion is structural and `none` only means fuel
exhaustion.
- `ins`: `if (ht->numpairs >= ht->maxpairs) hash_table_resize(ht);` then the walk;
- `go`: run the probe walk from `homeIndex`; on `needResize`
  (`cur.dist >= maxprobes`) resize, reset `cur.dist = DIST_IDEAL` — keeping the
  currently carried pair `cur` — and `goto begin`;
- `rsz`: `hash_table_init(&new, ht->size * 2, ht->maxpairs * 2)` with a fresh
  seed, then re-insert every non-free slot via the ordinary insert;
- `rlist`: the re-insertion loop (insert's return value is ignored). -/
def run : Nat → Op → Option OpRes
  | 0, _ => none
  | f + 1, .ins t cur seeds =>
    if t.numpairs ≥ t.maxpairs then
      match run f (.rsz t seeds) with
      | some (.rszR t' seeds') => run f (.go t' cur seeds')
      | _ => none
    else run f (.go t cur seeds)
  | f + 1, .go t cur seeds =>
    match insertWalk (t.maxprobes + 2) t cur (homeIndex t cur.key) with
    | some (.placed t' s, _) => some (.insR (some s) t' seeds)
    | some (.dup t', _) => some (.insR none t' seeds)
    | some (.needResize t' c, _) =>
      match run f (.rsz t' seeds) with
      | some (.rszR t'' seeds') => run f (.go t'' { c with dist := DIST_IDEAL } seeds')
      | _ => none
    | none => none
  | f + 1, .rsz t seeds =>
    let t0 := hash_table_init (t.size * 2) (t.maxpairs * 2) (seeds.headD 0)
    run f (.rlist t0 seeds.tail (liveItems t))
  | _ + 1, .rlist t seeds [] => some (.rszR t seeds)
  | f + 1, .rlist t seeds (q :: rest) =>
    match run f (.ins t q seeds) with
    | some (.insR _ t' seeds') => run f (.rlist t' seeds' rest)
    | _ => none

/-- `hash_table_insert`: returns the placed slot (`some i`, the returned
pointer) or `none` for the C `NULL` (key already present), together with the
updated table and remaining seeds. Outer `none` = fuel ran out. -/
def hash_table_insert (fuel : Nat) (t : HashTable) (cur : Pair)
    (seeds : List Nat) : Option (Option Nat × HashTable × List Nat) :=
  match run fuel (.ins t cur seeds) with
  | some (.insR r t' seeds') => some (r, t', seeds')
  | _ => none

/-- `hash_table_resize` as a standalone call. -/
def hash_table_resize (fuel : Nat) (t : HashTable) (seeds : List Nat) :
    Option (HashTable × List Nat) :=
  match run fuel (.rsz t seeds) with
  | some (.rszR t' seeds') => some (t', seeds')
  | _ => none

/-- `hash_table_remove`: locate by search; if found set `p->status = PAIR_FREE`
and return `p` (whose key/val fields are untouched); `numpairs` is not
changed by the C code. -/
def hash_table_remove (t : HashTable) (key : List Nat) :
    Option Pair × HashTable :=
  match hash_table_search t key with
  | some i =>
    let freed := { t.pairs.getD i noPair with dist := PAIR_FREE }
    (some freed, { t with pairs := t.pairs.setD i freed })
  | none => (none, t)

/-- Structural well-formedness that `init` establishes and that the C code
relies on: the slot array has `totalsize = size + maxprobes` entries,
capacity is positive, and the probe bound is far below the status
sentinels. -/
def WF (t : HashTable) : Prop :=
  t.pairs.size = t.totalsize ∧ t.totalsize = t.size + t.maxprobes ∧
    1 ≤ t.size ∧ t.maxprobes < PAIR_RESERVED

instance (t : HashTable) : Decidable (WF t) := by
  unfold WF; infer_instance

/-- A slot is occupied when its status/dist field holds none of the three
sentinels, i.e. a genuine probe distance. -/
def slotOccupied (t : HashTable) (i : Nat) : Prop :=
  (t.pairs.getD i noPair).dist < PAIR_RESERVED

instance (t : HashTable) (i : Nat) : Decidable (slotOccupied t i) := by
  unfold slotOccupied; infer_instance

/-- No two occupied slots hold equal keys. -/
def KeysUnique (t : HashTable) : Prop :=
  ∀ i, i < t.pairs.size → ∀ j, j < t.pairs.size → i ≠ j →
    slotOccupied t i → slotOccupied t j →
    (t.pairs.getD i noPair).key ≠ (t.pairs.getD j noPair).key

set_option synthInstance.maxSize 512 in
instance (t : HashTable) : Decidable (KeysUnique t) := by
  unfold KeysUnique; infer_instance

/-- The relation between capacity and probe bound maintained by
`hash_table_init` and every resize. -/
def TblInv (t : HashTable) : Prop :=
  t.maxprobes = arch_ilog2 t.size ∧ 1 ≤ t.size

instance (t : HashTable) : Decidable (TblInv t) := by
  unfold TblInv; infer_instance

/-- Number of slots `hash_table_resize` would re-insert, i.e. the number of
slots whose status/dist field is not `PAIR_FREE`. -/
def liveCount (t : HashTable) : Nat := (liveItems t).length

/-- Every slot's status/dist field is either `PAIR_FREE` or at most `d`
(out-of-range reads yield the free `noPair`, so they satisfy this too). -/
def DBound (t : HashTable) (d : Nat) : Prop :=
  ∀ i, (t.pairs.getD i noPair).dist = PAIR_FREE ∨
    (t.pairs.getD i noPair).dist ≤ d

/-- The table fields the probe loop of one insertion attempt never writes:
everything except the slot contents and `numpairs`; the slot-array length
is also preserved. -/
def sameShape (t t' : HashTable) : Prop :=
  t'.size = t.size ∧ t'.totalsize = t.totalsize ∧
  t'.maxpairs = t.maxpairs ∧ t'.maxprobes = t.maxprobes ∧
  t'.hashseed = t.hashseed ∧ t'.pairs.size = t.pairs.size

/-- Fuel for the remaining resizes of a run whose tables never hold more
than `E` pairs. Every resize doubles the capacity and the occupancy
threshold, so it strictly increases the probe bound (under `TblInv`, by
`arch_ilog2_double`) and, once positive, the threshold; once the probe
bound reaches `E*E + 2*E + 2` and the threshold exceeds `E`, no probe walk
can reach the probe bound and no occupancy pre-check can fire any more,
and this budget is zero. -/
def resizeBudget (E : Nat) (t : HashTable) : Nat :=
  (E * E + 2 * E + 2 - t.maxprobes) + ((E + 1) - t.maxpairs)

/-- A table freshly allocated by a resize and filled by at most `j`
insertions so far: every recorded distance is at most `E * j` (a probe
walk that ends in a placement or a duplicate visits at most
`liveCount + 1 ≤ E` slots, so each insertion raises the largest recorded
distance by at most `E`), the occupied slots are counted by `numpairs`,
which is at most `j`. -/
def Rebuilt (E : Nat) (t : HashTable) (j : Nat) : Prop :=
  DBound t (E * j) ∧ liveCount t ≤ t.numpairs ∧ t.numpairs ≤ j

/-- The facts preserved by every step of the insert/resize recursion:
well-formedness, the capacity/probe-bound relation of `init`, a positive
occupancy threshold, and headroom of the probe bound below the status
sentinels for all remaining resizes. -/
def GoodTable (E : Nat) (t : HashTable) : Prop :=
  WF t ∧ TblInv t ∧ 1 ≤ t.maxpairs ∧
  t.maxprobes + resizeBudget E t + 3 < PAIR_RESERVED

/-! ### Concrete scenarios

All scenarios below run with seed 0 everywhere (`hash_table_init _ _ 0` and
an empty seed list, whose head defaults to 0 on resize). Key homes quoted
below are `arch_strhash k % size` values of the actual byte strings. -/

/-- Insert and keep only the resulting table (fuel 9 is ample for these
small scenarios). -/
def insT (fuel : Nat) (t : HashTable) (k : List Nat) (v : Nat) : HashTable :=
  match hash_table_insert fuel t (pair_init k v) [] with
  | some (_, t', _) => t'
  | none => t

/-- Key "a": home 0 mod 4, home 4 mod 8 and mod 32. -/
def kA1 : List Nat := [97]

/-- Key "d": home 1 mod 4. -/
def kA2 : List Nat := [100]

/-- Key "e": home 0 mod 4. -/
def kA3 : List Nat := [101]

/-- Key "c": home 2 mod 4. -/
def kQ : List Nat := [99]

/-- Table of capacity 4 (probe bound 2) with "a" at slot 0 and "d" at
slot 1, both at distance 0. -/
def TA2 : HashTable := insT 9 (insT 9 (hash_table_init 4 4 0) kA1 1) kA2 2

/-- `TA2` after inserting "e" (home 0): its probe walk passes slots 0 and 1
and places it in the free slot 2 at distance 2 = maxprobes. -/
def TA3 : HashTable := insT 9 TA2 kA3 3

/-- Key "aa": home 5 mod 32. -/
def kB1 : List Nat := [97, 97]

/-- Key "bb": home 5 mod 32. -/
def kB2 : List Nat := [98, 98]

/-- Key "g": home 2 mod 32. -/
def kB3 : List Nat := [103]

/-- Key "f": home 3 mod 32. -/
def kB4 : List Nat := [102]

/-- Key "af": home 2 mod 32. -/
def kB6 : List Nat := [97, 102]

/-- Capacity-32 table (probe bound 5) holding "aa"@5(d0), "bb"@6(d1),
"g"@2(d0), "f"@3(d0), "a"@4(d0). -/
def TB5 : HashTable :=
  insT 9 (insT 9 (insT 9 (insT 9 (insT 9 (hash_table_init 32 16 0) kB1 10)
    kB2 20) kB3 30) kB4 40) kA1 50

/-- `TB5` with "aa" removed (slot 5 freed; `numpairs` stays 5). -/
def TB5r : HashTable := (hash_table_remove TB5 kB1).2

/-- `TB5r` after inserting "af" (home 2): its walk passes slots 2, 3, 4 and
places it in the freed slot 5 at distance 3. -/
def TB6 : HashTable := insT 9 TB5r kB6 60

/-- `TB6` after inserting "bb" again with value 99: at slot 5 the occupant
"af" has distance 3 > 0, so the code swaps "bb" in at distance 0 and carries
"af" onward, ending with the key "bb" in both slot 5 (value 99) and slot 6
(value 20). -/
def TB7 : HashTable := insT 9 TB6 kB2 99

/-- `TB7` after removing "bb" (frees slot 5, the first match). -/
def TB7r : HashTable := (hash_table_remove TB7 kB2).2

/-- Key "x": home 5 mod 8. -/
def kX : List Nat := [120]

/-- Capacity-8 table holding only "x" with value 1. -/
def TX1 : HashTable := insT 9 (hash_table_init 8 6 0) kX 1

/-- Capacity-4 table holding "a" and "d", after which "a" was removed:
one occupied slot but `numpairs` is still 2. -/
def TC7 : HashTable :=
  (hash_table_remove (insT 9 (insT 9 (hash_table_init 4 4 0) kA1 1) kA2 2)
    kA1).2

/-- The table produced by resizing `TC7`. -/
def TC7R : HashTable :=
  match hash_table_resize 9 TC7 [] with
  | some (t, _) => t
  | none => TC7

/-- Capacity-4 table holding "a"@0(d0), "e"@1(d1), "c"@2(d0). -/
def T9 : HashTable :=
  insT 9 (insT 9 (insT 9 (hash_table_init 4 4 0) kA1 1) kA3 2) kQ 3

/-- `T9` after inserting "d" (home 1): the walk swaps "d" into slot 1
(displacing "e", distance 1), reaches `maxprobes` at slot 2, resizes —
which re-inserts "a", "d", "c" — and then restarts with the carried pair
"e", placing it at slot 0 of the new table and returning that slot. -/
def T9R : HashTable := insT 9 T9 kA2 4

/-! ### Claim theorems: concrete refutations and bug evaluations -/

/-- C1 (code bug): the round-trip property fails immediately. Inserting "e"
into `TA2` succeeds (it is placed in slot 2, at distance 2 = the probe
bound, because the free-slot placement in the insert loop precedes the
`cur.dist >= maxprobes` check), yet `search` — which only scans distances
strictly below the probe bound — reports the key absent right after the
insert returns. -/
theorem c1_insert_then_search_absent :
    (hash_table_insert 9 TA2 (pair_init kA3 3) []).map (fun r => r.1) =
      some (some 2) ∧
    (TA3.pairs.getD 2 noPair).key = kA3 ∧
    (TA3.pairs.getD 2 noPair).val = 3 ∧
    hash_table_search TA3 kA3 = none ∧
    searchVal TA3 kA3 = none := by decide

/-- C4 (code bug): after the completed insert of "e", slot 2 of `TA3` is
occupied with recorded distance 2, which equals the probe bound
`TA3.maxprobes = 2` instead of being strictly less: insert finalized a slot
at a distance equal to the probe bound rather than resizing first. -/
theorem c4_occupied_at_probe_bound :
    slotOccupied TA3 2 ∧
    (TA3.pairs.getD 2 noPair).dist = TA3.maxprobes ∧
    ¬ (TA3.pairs.getD 2 noPair).dist < TA3.maxprobes := by decide

/-- C3 (code bug): key uniqueness is violated by a reachable operation
sequence. In `TB7` — built by init(32,16); insert "aa","bb","g","f","a";
remove "aa"; insert "af"; insert "bb" again — the final insert swaps the
new "bb" into slot 5 (the occupant "af" had distance 3 > 0) without ever
reaching the duplicate check against the old "bb" at slot 6, so slots 5 and
6 are both occupied and both hold the key "bb". -/
theorem c3_duplicate_keys_reachable :
    slotOccupied TB7 5 ∧ slotOccupied TB7 6 ∧
    (TB7.pairs.getD 5 noPair).key = kB2 ∧
    (TB7.pairs.getD 6 noPair).key = kB2 ∧
    ¬ KeysUnique TB7 := by decide

/-- C5 (code bug): the displacement condition is reversed w.r.t. Robin Hood
hashing. First conjunct: in `TB6`, slot 5 holds "af" at distance 3; the
incoming pair ("bb", 99) at distance 0 is swapped into the slot (the code
swaps when `p->dist > cur.dist`, i.e. the occupant is farther, and carries
the farther occupant forward). Second conjunct: in `TA2`, slot 1 holds "d"
at distance 0 while the incoming "e" has distance 1 — the claimed condition
(occupant strictly closer than the incoming entry) holds, yet no swap
happens: the step leaves the table unchanged and advances. -/
theorem c5_swap_condition_reversed :
    ((TB6.pairs.getD 5 noPair).dist = 3 ∧
      insertStep TB6 (pair_init kB2 99) 5 =
        .next { TB6 with pairs := TB6.pairs.setD 5 (pair_init kB2 99) }
          { key := kB6, val := 60, dist := 3 }) ∧
    ((TA2.pairs.getD 1 noPair).dist = 0 ∧
      insertStep TA2 { key := kA3, val := 3, dist := 1 } 1 =
        .next TA2 { key := kA3, val := 3, dist := 1 }) := by decide

/-- C6 (counterexample): on the reachable table `TB7` the key "bb" is
present (search finds it at slot 5 with value 99), but after `remove "bb"`
search does not report it absent: the shadowed duplicate at slot 6 is found
with the stale value 20. -/
theorem c6_remove_leaves_key_findable :
    searchVal TB7 kB2 = some 99 ∧
    hash_table_search TB7r kB2 = some 6 ∧
    searchVal TB7r kB2 = some 20 := by decide

/-- C2 (counterexample): inserting "x" a second time with value 2 into
`TX1` (where "x" holds value 1) returns the C `NULL` — not the previous
value — and leaves the table completely unchanged, so search still yields
the old value 1, not 2. -/
theorem c2_second_insert_returns_null :
    hash_table_insert 9 TX1 (pair_init kX 2) [] = some (none, TX1, []) ∧
    searchVal TX1 kX = some 1 ∧ TX1.numpairs = 1 := by decide

/-- C7 (code bug): resize does not leave the occupied-count unchanged.
`TC7` was built by `init(4, 4)`, inserting "a" and "d" and removing "a";
its `numpairs` is still 2 — `hash_table_remove` (line 153) only sets
`status = PAIR_FREE` and never decrements `numpairs` — while only one slot
is occupied. The resize (which does double the capacity and the threshold)
rebuilds the table and counts the slots it actually re-inserts, yielding
`numpairs = 1 = (liveItems TC7).length ≠ 2`: the occupied-count changes
across the resize. -/
theorem c7_resize_changes_numpairs :
    hash_table_resize 9 TC7 [] = some (TC7R, []) ∧
    TC7R.size = 2 * TC7.size ∧
    TC7R.maxpairs = 2 * TC7.maxpairs ∧
    TC7.numpairs = 2 ∧ TC7R.numpairs = 1 ∧
    TC7R.numpairs = (liveItems TC7).length ∧
    ¬ TC7R.numpairs = TC7.numpairs := by decide

/-- C9 (counterexample): the retry after a probe-bound-triggered resize
does not restart with the original (key, value) pair. Inserting "d" into
`T9` swaps "d" into slot 1 (displacing "e"), hits the probe bound, resizes
(re-inserting "a", "d", "c"), and then restarts carrying the displaced pair
"e" at distance 0: the insert call returns slot 0, which holds the key "e",
not the inserted key "d". -/
theorem c9_restart_carries_displaced_pair :
    (hash_table_insert 9 T9 (pair_init kA2 4) []).map (fun r => r.1) =
      some (some 0) ∧
    (T9R.pairs.getD 0 noPair).key = kA3 ∧
    ¬ kA3 = kA2 ∧
    searchVal T9R kA2 = some 4 := by decide

/-- C10 (counterexample): `hash_table_init` performs no validation at all.
With `initialCapacity = 1` (≤ 1) and `maxOccupancy = 1` (≥ capacity) it
does not fail with any error: it returns an ordinary table with
occupied-count 0 and probe bound `ilog2 1 = 0`. -/
theorem c10_init_accepts_capacity_one :
    (hash_table_init 1 1 0).size = 1 ∧
    (hash_table_init 1 1 0).maxpairs = 1 ∧
    (hash_table_init 1 1 0).numpairs = 0 ∧
    (hash_table_init 1 1 0).maxprobes = 0 ∧
    (hash_table_init 1 1 0).totalsize = 1 := by decide

/-! ### General theorems -/

theorem getD_setD_self (a : Array Pair) (i : Nat) (v d : Pair)
    (h : i < a.size) : (a.setD i v).getD i d = v := by
  rw [Array.getD_eq_get?, Array.getElem?_setD_eq a h v]; rfl

theorem getD_setD_ne (a : Array Pair) (i j : Nat) (v d : Pair) (h : i ≠ j) :
    (a.setD i v).getD j d = a.getD j d := by
  rw [Array.getD_eq_get?, Array.getD_eq_get?]
  unfold Array.setD
  split
  · rw [Array.getElem?_set_ne _ _ _ h]
  · rfl

theorem searchFrom_succ (t : HashTable) (key : List Nat) (idx dist rem : Nat) :
    searchFrom t key idx dist (rem + 1) =
      if matchAt t key (idx + dist) dist then (some (idx + dist), [idx + dist])
      else ((searchFrom t key idx (dist + 1) rem).1,
        (idx + dist) :: (searchFrom t key idx (dist + 1) rem).2) := by
  simp only [searchFrom, matchAt]

theorem searchFrom_fst_none_iff (t : HashTable) (key : List Nat) (idx : Nat) :
    ∀ rem dist, (searchFrom t key idx dist rem).1 = none ↔
      ∀ d, dist ≤ d → d < dist + rem → ¬ matchAt t key (idx + d) d := by
  intro rem
  induction rem with
  | zero =>
    intro dist
    constructor
    · intro _ d h1 h2; omega
    · intro _; rfl
  | succ rem ih =>
    intro dist
    rw [searchFrom_succ]
    by_cases hm : matchAt t key (idx + dist) dist
    · rw [if_pos hm]
      constructor
      · intro h; cases h
      · intro h; exact absurd hm (h dist (Nat.le_refl _) (by omega))
    · rw [if_neg hm]
      constructor
      · intro h d h1 h2
        rcases Nat.eq_or_lt_of_le h1 with rfl | hlt
        · exact hm
        · exact ((ih (dist + 1)).mp h) d hlt (by omega)
      · intro h
        exact (ih (dist + 1)).mpr (fun d h1 h2 => h d (by omega) (by omega))

theorem searchFrom_fst_hit (t : HashTable) (key : List Nat) (idx : Nat) :
    ∀ rem dist d, dist ≤ d → d < dist + rem → matchAt t key (idx + d) d →
      (∀ d', dist ≤ d' → d' < d → ¬ matchAt t key (idx + d') d') →
      (searchFrom t key idx dist rem).1 = some (idx + d) := by
  intro rem
  induction rem with
  | zero => intro dist d h1 h2 _ _; omega
  | succ rem ih =>
    intro dist d h1 h2 hm hfirst
    rw [searchFrom_succ]
    rcases Nat.eq_or_lt_of_le h1 with rfl | hlt
    · rw [if_pos hm]
    · rw [if_neg (hfirst dist (Nat.le_refl _) hlt)]
      exact ih (dist + 1) d hlt (by omega) hm
        (fun d' hd1 hd2 => hfirst d' (by omega) hd2)

theorem searchFrom_fst_some (t : HashTable) (key : List Nat) (idx : Nat) :
    ∀ rem dist i, (searchFrom t key idx dist rem).1 = some i →
      ∃ d, dist ≤ d ∧ d < dist + rem ∧ i = idx + d ∧ matchAt t key (idx + d) d := by
  intro rem
  induction rem with
  | zero => intro dist i h; cases h
  | succ rem ih =>
    intro dist i h
    rw [searchFrom_succ] at h
    by_cases hm : matchAt t key (idx + dist) dist
    · rw [if_pos hm] at h
      exact ⟨dist, Nat.le_refl _, by omega, (Option.some.inj h).symm, hm⟩
    · rw [if_neg hm] at h
      obtain ⟨d, h1, h2, h3, h4⟩ := ih (dist + 1) i h
      exact ⟨d, by omega, by omega, h3, h4⟩

theorem searchFrom_fst_congr (t' t : HashTable) (key : List Nat) (idx : Nat) :
    ∀ rem dist,
      (∀ d, dist ≤ d → d < dist + rem →
        (matchAt t' key (idx + d) d ↔ matchAt t key (idx + d) d)) →
      (searchFrom t' key idx dist rem).1 = (searchFrom t key idx dist rem).1 := by
  intro rem
  induction rem with
  | zero => intro dist _; rfl
  | succ rem ih =>
    intro dist hiff
    rw [searchFrom_succ, searchFrom_succ]
    by_cases hm : matchAt t key (idx + dist) dist
    · rw [if_pos hm, if_pos ((hiff dist (Nat.le_refl _) (by omega)).mpr hm)]
    · rw [if_neg hm, if_neg (fun hc => hm ((hiff dist (Nat.le_refl _) (by omega)).mp hc))]
      exact ih (dist + 1) (fun d h1 h2 => hiff d (by omega) (by omega))

/-- C10 (amended): `hash_table_init` performs no parameter validation and
never fails; for any capacity ≥ 1 (capacity 0 would be undefined behaviour
in the C probe-bound computation) it returns a table with occupied-count 0,
probe bound `⌊log2 capacity⌋`, `capacity + probe-bound` slots, all of them
Free, and the requested threshold and seed — there is no
`InvalidConfiguration` error path at all. -/
theorem c10_init_behaviour (size maxpairs seed : Nat) (h : 1 ≤ size) :
    (hash_table_init size maxpairs seed).numpairs = 0 ∧
    (hash_table_init size maxpairs seed).size = size ∧
    (hash_table_init size maxpairs seed).maxpairs = maxpairs ∧
    (hash_table_init size maxpairs seed).hashseed = seed ∧
    (hash_table_init size maxpairs seed).maxprobes = arch_ilog2 size ∧
    (hash_table_init size maxpairs seed).totalsize = size + arch_ilog2 size ∧
    (hash_table_init size maxpairs seed).pairs.size = size + arch_ilog2 size ∧
    ∀ i, i < size + arch_ilog2 size →
      ((hash_table_init size maxpairs seed).pairs.getD i noPair).dist =
        PAIR_FREE := by
  refine ⟨rfl, rfl, rfl, rfl, rfl, rfl, by simp [hash_table_init], ?_⟩
  intro i hi
  simp [hash_table_init, Array.getD_eq_get?, Array.getElem?_mkArray, hi]
  rfl

/-- Witness for `c10_init_behaviour` at capacity 4, threshold 4, seed 0:
the fresh table has occupied-count 0 and probe bound 2. -/
theorem c10_init_behaviour_witness :
    (hash_table_init 4 4 0).numpairs = 0 ∧
    (hash_table_init 4 4 0).size = 4 ∧
    (hash_table_init 4 4 0).maxpairs = 4 ∧
    (hash_table_init 4 4 0).hashseed = 0 ∧
    (hash_table_init 4 4 0).maxprobes = arch_ilog2 4 ∧
    (hash_table_init 4 4 0).totalsize = 4 + arch_ilog2 4 ∧
    (hash_table_init 4 4 0).pairs.size = 4 + arch_ilog2 4 ∧
    ∀ i, i < 4 + arch_ilog2 4 →
      ((hash_table_init 4 4 0).pairs.getD i noPair).dist = PAIR_FREE :=
  c10_init_behaviour 4 4 0 (by decide)


theorem search_after_free (t : HashTable) (k : List Nat) (i : Nat) (q : Pair)
    (hsz : t.pairs.size = t.totalsize)
    (hts : t.totalsize = t.size + t.maxprobes)
    (hpos : 1 ≤ t.size)
    (hmb : t.maxprobes < PAIR_RESERVED)
    (hU : KeysUnique t)
    (hocc : slotOccupied t i) (hkey : (t.pairs.getD i noPair).key = k)
    (hib : i < t.pairs.size) (hq : q.dist = PAIR_FREE) :
    hash_table_search { t with pairs := t.pairs.setD i q } k = none := by
  have hcst : PAIR_RESERVED < PAIR_FREE := by decide
  have key : (searchFrom { t with pairs := t.pairs.setD i q } k
      (homeIndex t k) 0 t.maxprobes).1 = none := by
    rw [searchFrom_fst_none_iff]
    intro d' h0 hd'
    rw [Nat.zero_add] at hd'
    intro hmatch
    unfold matchAt at hmatch
    have hp : ({ t with pairs := t.pairs.setD i q } : HashTable).pairs =
        t.pairs.setD i q := rfl
    rw [hp] at hmatch
    by_cases hij : homeIndex t k + d' = i
    · rw [hij, getD_setD_self _ _ _ _ hib] at hmatch
      have := hmatch.1
      omega
    · rw [getD_setD_ne _ _ _ _ _ (fun h => hij h.symm)] at hmatch
      have hjb : homeIndex t k + d' < t.pairs.size := by
        have hidx : homeIndex t k < t.size := Nat.mod_lt _ (by omega)
        rw [hsz, hts]; omega
      have hocc2 : slotOccupied t (homeIndex t k + d') := by
        unfold slotOccupied; rw [hmatch.1]; omega
      exact hU _ hjb _ hib hij hocc2 hocc (hmatch.2.trans hkey.symm)
  exact key

theorem search_setD_other (t : HashTable) (k' : List Nat) (i : Nat) (q : Pair)
    (hknot : (t.pairs.getD i noPair).key ≠ k')
    (hq : q.dist = PAIR_FREE)
    (hmb : t.maxprobes < PAIR_RESERVED)
    (hib : i < t.pairs.size) :
    hash_table_search { t with pairs := t.pairs.setD i q } k' =
      hash_table_search t k' := by
  have hcst : PAIR_RESERVED < PAIR_FREE := by decide
  have key : (searchFrom { t with pairs := t.pairs.setD i q } k'
      (homeIndex t k') 0 t.maxprobes).1 =
      (searchFrom t k' (homeIndex t k') 0 t.maxprobes).1 := by
    apply searchFrom_fst_congr
    intro d' h0 hd'
    rw [Nat.zero_add] at hd'
    unfold matchAt
    have hp : ({ t with pairs := t.pairs.setD i q } : HashTable).pairs =
        t.pairs.setD i q := rfl
    rw [hp]
    by_cases hij : homeIndex t k' + d' = i
    · rw [hij, getD_setD_self _ _ _ _ hib]
      constructor
      · intro hm'
        exfalso
        have := hm'.1
        omega
      · intro hm
        exfalso
        exact hknot hm.2
    · rw [getD_setD_ne _ _ _ _ _ (fun h => hij h.symm)]
  exact key

/-- C6 (amended): deletion is correct on every well-formed table whose
occupied slots hold pairwise distinct keys (a precondition the
implementation itself fails to maintain — see the C3 scenario, which is why
the claim as stated is false): removing a present key returns that slot's
pair (hence its value) with its status set to Free, after which search
reports the key absent, and every other key's search result and stored
value are unchanged; removing an absent key returns the C `NULL` and leaves
the table completely unchanged. -/
theorem c6_remove_correct (t : HashTable) (k : List Nat)
    (hW : WF t) (hU : KeysUnique t) :
    (∀ i, hash_table_search t k = some i →
      (hash_table_remove t k).1 =
        some { t.pairs.getD i noPair with dist := PAIR_FREE } ∧
      hash_table_search (hash_table_remove t k).2 k = none ∧
      (∀ k', k' ≠ k →
        hash_table_search (hash_table_remove t k).2 k' =
          hash_table_search t k' ∧
        searchVal (hash_table_remove t k).2 k' = searchVal t k')) ∧
    (hash_table_search t k = none → hash_table_remove t k = (none, t)) := by
  obtain ⟨hsz, hts, hpos, hmb⟩ := hW
  constructor
  · intro i hs
    obtain ⟨d, -, hdm, hid, hmate⟩ :=
      searchFrom_fst_some t k (homeIndex t k) t.maxprobes 0 i hs
    rw [Nat.zero_add] at hdm
    rw [← hid] at hmate
    have hidx : homeIndex t k < t.size := Nat.mod_lt _ (by omega)
    have hib : i < t.pairs.size := by rw [hsz, hts]; omega
    have hocc : slotOccupied t i := by
      unfold slotOccupied; rw [hmate.1]; omega
    have hrm1 : (hash_table_remove t k).1 =
        some { t.pairs.getD i noPair with dist := PAIR_FREE } := by
      unfold hash_table_remove
      rw [hs]
    have hrm2 : (hash_table_remove t k).2 = { t with
        pairs := t.pairs.setD i { t.pairs.getD i noPair with dist := PAIR_FREE } } := by
      unfold hash_table_remove
      rw [hs]
    refine ⟨hrm1, ?_, ?_⟩
    · rw [hrm2]
      exact search_after_free t k i _ hsz hts hpos hmb hU hocc hmate.2 hib rfl
    · intro k' hkk
      have hknot : (t.pairs.getD i noPair).key ≠ k' := by
        rw [hmate.2]; exact fun h => hkk h.symm
      have hsch := search_setD_other t k' i
        { t.pairs.getD i noPair with dist := PAIR_FREE } hknot rfl hmb hib
      rw [hrm2]
      refine ⟨hsch, ?_⟩
      unfold searchVal
      rw [hsch]
      cases hcase : hash_table_search t k' with
      | none => rfl
      | some j =>
        obtain ⟨d2, -, hd2, hjd, hmj⟩ :=
          searchFrom_fst_some t k' (homeIndex t k') t.maxprobes 0 j hcase
        rw [← hjd] at hmj
        have hji : i ≠ j := by
          intro he
          rw [← he] at hmj
          exact hknot hmj.2
        show some ((t.pairs.setD i
            { t.pairs.getD i noPair with dist := PAIR_FREE }).getD j
              noPair).val = some (t.pairs.getD j noPair).val
        rw [getD_setD_ne _ _ _ _ _ hji]
  · intro hs
    unfold hash_table_remove
    rw [hs]

/-- Witness for `c6_remove_correct` on the concrete table `TA2` and key
"d" (found at slot 1): the remove returns the freed pair, search then
reports "d" absent, and all other keys are untouched. -/
theorem c6_remove_correct_witness :
    (hash_table_remove TA2 kA2).1 =
      some { TA2.pairs.getD 1 noPair with dist := PAIR_FREE } ∧
    hash_table_search (hash_table_remove TA2 kA2).2 kA2 = none ∧
    (∀ k', k' ≠ kA2 →
      hash_table_search (hash_table_remove TA2 kA2).2 k' =
        hash_table_search TA2 k' ∧
      searchVal (hash_table_remove TA2 kA2).2 k' = searchVal TA2 k') :=
  (c6_remove_correct TA2 kA2 (by decide) (by decide)).1 1 (by decide)

theorem insertStep_not_free_no_swap (t : HashTable) (cur : Pair) (i : Nat)
    (h1 : ¬ (t.pairs.getD i noPair).dist = PAIR_FREE)
    (h2 : ¬ (t.pairs.getD i noPair).dist > cur.dist) :
    insertStep t cur i = insertStepPost t (t.pairs.getD i noPair) cur
      t.maxprobes := by
  unfold insertStep
  rw [if_neg h1, if_neg h2]

theorem insertStepPost_next (t : HashTable) (p' cur' : Pair) (mp : Nat)
    (h1 : ¬ cur'.dist ≥ mp)
    (h2 : ¬ (p'.dist = cur'.dist ∧ p'.key = cur'.key)) :
    insertStepPost t p' cur' mp = .next t cur' := by
  unfold insertStepPost
  rw [if_neg h1, if_neg h2]

theorem insertStepPost_dup (t : HashTable) (p' cur' : Pair) (mp : Nat)
    (h1 : ¬ cur'.dist ≥ mp)
    (h2 : p'.dist = cur'.dist ∧ p'.key = cur'.key) :
    insertStepPost t p' cur' mp = .dup := by
  unfold insertStepPost
  rw [if_neg h1, if_pos h2]

theorem insertWalk_dup (t : HashTable) (k : List Nat) (v : Nat) (idx d : Nat)
    (hmb : t.maxprobes < PAIR_RESERVED)
    (hd : d < t.maxprobes)
    (hmatch : matchAt t k (idx + d) d)
    (hpath : ∀ j, j < d → (t.pairs.getD (idx + j) noPair).dist ≤ j ∧
      ¬ matchAt t k (idx + j) j) :
    ∀ r fuel, r < fuel → ∀ j, j + r = d →
      ∃ tr, insertWalk fuel t { key := k, val := v, dist := j } (idx + j) =
        some (.dup t, tr) := by
  have hcst : PAIR_RESERVED < PAIR_FREE := by decide
  intro r
  induction r with
  | zero =>
    intro fuel hf j hj
    have hj' : j = d := by omega
    subst hj'
    cases fuel with
    | zero => omega
    | succ f =>
      have hstep : insertStep t { key := k, val := v, dist := j } (idx + j) =
          .dup := by
        rw [insertStep_not_free_no_swap]
        · apply insertStepPost_dup
          · show ¬ j ≥ t.maxprobes
            omega
          · exact ⟨hmatch.1, hmatch.2⟩
        · rw [hmatch.1]; omega
        · rw [hmatch.1]; show ¬ j > j; omega
      refine ⟨[idx + j], ?_⟩
      simp only [insertWalk, hstep]
  | succ r ih =>
    intro fuel hf j hj
    cases fuel with
    | zero => omega
    | succ f =>
      have hjlt : j < d := by omega
      obtain ⟨hle, hnm⟩ := hpath j hjlt
      have hstep : insertStep t { key := k, val := v, dist := j } (idx + j) =
          .next t { key := k, val := v, dist := j } := by
        rw [insertStep_not_free_no_swap]
        · apply insertStepPost_next
          · show ¬ j ≥ t.maxprobes
            omega
          · intro hc
            exact hnm ⟨hc.1, hc.2⟩
        · intro hfree
          rw [hfree] at hle
          omega
        · show ¬ (t.pairs.getD (idx + j) noPair).dist > j
          omega
      obtain ⟨tr, htr⟩ := ih f (by omega) (j + 1) (by omega)
      have htr' : insertWalk f t { key := k, val := v, dist := j + 1 }
          (idx + j + 1) = some (.dup t, tr) := htr
      refine ⟨(idx + j) :: tr, ?_⟩
      simp only [insertWalk, hstep, htr']

theorem run_ins (f : Nat) (t : HashTable) (cur : Pair) (seeds : List Nat) :
    run (f + 1) (.ins t cur seeds) =
      if t.numpairs ≥ t.maxpairs then
        match run f (.rsz t seeds) with
        | some (.rszR t' seeds') => run f (.go t' cur seeds')
        | _ => none
      else run f (.go t cur seeds) := rfl

theorem run_go (f : Nat) (t : HashTable) (cur : Pair) (seeds : List Nat) :
    run (f + 1) (.go t cur seeds) =
      match insertWalk (t.maxprobes + 2) t cur (homeIndex t cur.key) with
      | some (.placed t' s, _) => some (.insR (some s) t' seeds)
      | some (.dup t', _) => some (.insR none t' seeds)
      | some (.needResize t' c, _) =>
        match run f (.rsz t' seeds) with
        | some (.rszR t'' seeds') =>
          run f (.go t'' { c with dist := DIST_IDEAL } seeds')
        | _ => none
      | none => none := rfl

theorem run_rsz (f : Nat) (t : HashTable) (seeds : List Nat) :
    run (f + 1) (.rsz t seeds) =
      run f (.rlist (hash_table_init (t.size * 2) (t.maxpairs * 2)
        (seeds.headD 0)) seeds.tail (liveItems t)) := rfl

theorem run_rlist_nil (f : Nat) (t : HashTable) (seeds : List Nat) :
    run (f + 1) (.rlist t seeds []) = some (.rszR t seeds) := rfl

theorem run_rlist_cons (f : Nat) (t : HashTable) (seeds : List Nat)
    (q : Pair) (rest : List Pair) :
    run (f + 1) (.rlist t seeds (q :: rest)) =
      match run f (.ins t q seeds) with
      | some (.insR _ t' seeds') => run f (.rlist t' seeds' rest)
      | _ => none := rfl

/-- C2 (amended): when inserting a key `k` that is already present and
whose probe walk reaches the existing entry — the slot at distance `d` from
`k`'s home holds `k` at recorded distance `d`, every earlier slot of the
walk is occupied at a recorded distance at most its offset (so no free-slot
placement and no displacement swap intervenes) and holds a different entry,
the occupancy pre-check does not fire, and `d` is below the probe bound —
the insert returns the C `NULL` (not the previous value), stores nothing,
and leaves the table, its occupied-count, and the stored value completely
unchanged: search still returns the old value. -/
theorem c2_insert_existing_key (t : HashTable) (k : List Nat) (vNew : Nat)
    (d : Nat) (fuel : Nat)
    (hW : WF t)
    (hnp : t.numpairs < t.maxpairs)
    (hd : d < t.maxprobes)
    (hmatch : matchAt t k (homeIndex t k + d) d)
    (hpath : ∀ j, j < d →
      (t.pairs.getD (homeIndex t k + j) noPair).dist ≤ j ∧
      ¬ matchAt t k (homeIndex t k + j) j) :
    hash_table_insert (fuel + 2) t (pair_init k vNew) [] =
      some (none, t, []) ∧
    searchVal t k = some (t.pairs.getD (homeIndex t k + d) noPair).val := by
  obtain ⟨hsz, hts, hpos, hmb⟩ := hW
  constructor
  · obtain ⟨tr, htr⟩ := insertWalk_dup t k vNew (homeIndex t k) d hmb hd
      hmatch hpath d (t.maxprobes + 2) (by omega) 0 (by omega)
    have htr2 : insertWalk (t.maxprobes + 2) t (pair_init k vNew)
        (homeIndex t (pair_init k vNew).key) = some (.dup t, tr) := htr
    have hrun : run (fuel + 2) (.ins t (pair_init k vNew) []) =
        some (.insR none t []) := by
      show run (fuel + 1 + 1) (.ins t (pair_init k vNew) []) = _
      rw [run_ins, if_neg (by omega : ¬ t.numpairs ≥ t.maxpairs), run_go,
        htr2]
    unfold hash_table_insert
    rw [hrun]
  · have hsearch : hash_table_search t k = some (homeIndex t k + d) := by
      show (searchFrom t k (homeIndex t k) 0 t.maxprobes).1 = _
      exact searchFrom_fst_hit t k (homeIndex t k) t.maxprobes 0 d
        (Nat.zero_le _) (by omega) hmatch
        (fun d' h0 hd' => (hpath d' hd').2)
    unfold searchVal
    rw [hsearch]
    rfl

/-- Witness for `c2_insert_existing_key`: the table `TX1` holds "x" with
value 1 at its home slot (distance 0); re-inserting "x" with value 2
returns `NULL` and leaves the table unchanged, search still yielding 1. -/
theorem c2_insert_existing_key_witness :
    hash_table_insert 9 TX1 (pair_init kX 2) [] = some (none, TX1, []) ∧
    searchVal TX1 kX =
      some (TX1.pairs.getD (homeIndex TX1 kX + 0) noPair).val :=
  c2_insert_existing_key TX1 kX 2 0 7 (by decide) (by decide) (by decide)
    (by decide) (fun j hj => absurd hj (by omega))

theorem insertStep_next_spec (t : HashTable) (cur : Pair) (i : Nat)
    (t' : HashTable) (c : Pair)
    (h : insertStep t cur i = .next t' c) :
    c.dist < t.maxprobes ∧ cur.dist ≤ c.dist ∧
    t'.size = t.size ∧ t'.maxprobes = t.maxprobes := by
  unfold insertStep at h
  by_cases h1 : (t.pairs.getD i noPair).dist = PAIR_FREE
  · rw [if_pos h1] at h
    cases h
  · rw [if_neg h1] at h
    by_cases h2 : (t.pairs.getD i noPair).dist > cur.dist
    · rw [if_pos h2] at h
      unfold insertStepPost at h
      by_cases h3 : (t.pairs.getD i noPair).dist ≥ t.maxprobes
      · rw [if_pos h3] at h
        cases h
      · rw [if_neg h3] at h
        by_cases h4 : cur.dist = (t.pairs.getD i noPair).dist ∧
            cur.key = (t.pairs.getD i noPair).key
        · rw [if_pos h4] at h
          cases h
        · rw [if_neg h4] at h
          injection h with ha hb
          subst ha
          subst hb
          exact ⟨by omega, by omega, rfl, rfl⟩
    · rw [if_neg h2] at h
      unfold insertStepPost at h
      by_cases h3 : cur.dist ≥ t.maxprobes
      · rw [if_pos h3] at h
        cases h
      · rw [if_neg h3] at h
        by_cases h4 : (t.pairs.getD i noPair).dist = cur.dist ∧
            (t.pairs.getD i noPair).key = cur.key
        · rw [if_pos h4] at h
          cases h
        · rw [if_neg h4] at h
          injection h with ha hb
          subst ha
          subst hb
          exact ⟨by omega, Nat.le_refl _, rfl, rfl⟩

theorem insertWalk_trace_bound (X : Nat) :
    ∀ fuel (t : HashTable) (cur : Pair) (i : Nat) (res : WalkResult)
      (tr : List Nat),
      insertWalk fuel t cur i = some (res, tr) →
      X < t.size →
      i ≤ X + cur.dist →
      i < t.size + t.maxprobes →
      ∀ x ∈ tr, x < t.size + t.maxprobes := by
  intro fuel
  induction fuel with
  | zero =>
    intro t cur i res tr h
    cases h
  | succ f ih =>
    intro t cur i res tr h hX hi hib
    cases hstep : insertStep t cur i with
    | placed t2 s =>
      simp only [insertWalk, hstep] at h
      injection h with h'
      injection h' with h1 h2
      subst h2
      intro x hx
      rw [List.mem_singleton] at hx
      subst hx
      exact hib
    | dup =>
      simp only [insertWalk, hstep] at h
      injection h with h'
      injection h' with h1 h2
      subst h2
      intro x hx
      rw [List.mem_singleton] at hx
      subst hx
      exact hib
    | needResize t2 c =>
      simp only [insertWalk, hstep] at h
      injection h with h'
      injection h' with h1 h2
      subst h2
      intro x hx
      rw [List.mem_singleton] at hx
      subst hx
      exact hib
    | next t2 c =>
      simp only [insertWalk, hstep] at h
      obtain ⟨hc1, hc2, hc3, hc4⟩ := insertStep_next_spec t cur i t2 c hstep
      cases hrec : insertWalk f t2 { c with dist := c.dist + 1 } (i + 1) with
      | none =>
        rw [hrec] at h
        cases h
      | some rt =>
        obtain ⟨r2, tr2⟩ := rt
        rw [hrec] at h
        injection h with h'
        injection h' with h1 h2
        subst h2
        intro x hx
        rw [List.mem_cons] at hx
        rcases hx with rfl | hx2
        · exact hib
        · have hbnd := ih t2 { c with dist := c.dist + 1 } (i + 1) r2 tr2 hrec
            (by omega) (by show i + 1 ≤ X + (c.dist + 1); omega)
            (by rw [hc3, hc4]; omega) x hx2
          rw [hc3, hc4] at hbnd
          exact hbnd

theorem searchFrom_trace_bound (t : HashTable) (key : List Nat) (idx : Nat) :
    ∀ rem dist, dist + rem ≤ t.maxprobes →
      ∀ x ∈ (searchFrom t key idx dist rem).2, x < idx + t.maxprobes := by
  intro rem
  induction rem with
  | zero =>
    intro dist h x hx
    cases hx
  | succ rem ih =>
    intro dist h x hx
    rw [searchFrom_succ] at hx
    by_cases hm : matchAt t key (idx + dist) dist
    · rw [if_pos hm] at hx
      rw [List.mem_singleton] at hx
      subst hx
      omega
    · rw [if_neg hm] at hx
      rw [List.mem_cons] at hx
      rcases hx with rfl | hx2
      · omega
      · exact ih (dist + 1) (by omega) x hx2

/-- C8 (confirmed): on any well-formed table (slot array of
`totalsize = capacity + probe bound` entries, positive capacity), every
slot index read by the search loop, and every slot index read by an insert
probe walk started at the carried pair's home index, is strictly below the
total slot count `capacity + probe bound` — the guard slots suffice and no
probe ever needs modular wraparound or leaves the allocated array. This
covers every attempt of every insert (each restart is such a walk on the
then-current, still well-formed table). -/
theorem c8_probe_in_bounds (t : HashTable) (k : List Nat) (cur : Pair)
    (fuel : Nat) (hW : WF t) :
    (∀ x ∈ (searchFrom t k (homeIndex t k) 0 t.maxprobes).2,
      x < t.totalsize) ∧
    (∀ res tr, insertWalk fuel t cur (homeIndex t cur.key) = some (res, tr) →
      ∀ x ∈ tr, x < t.totalsize) := by
  obtain ⟨hsz, hts, hpos, hmb⟩ := hW
  have hidx : homeIndex t k < t.size := Nat.mod_lt _ (by omega)
  have hidx2 : homeIndex t cur.key < t.size := Nat.mod_lt _ (by omega)
  constructor
  · intro x hx
    have := searchFrom_trace_bound t k (homeIndex t k) t.maxprobes 0
      (by omega) x hx
    omega
  · intro res tr h
    intro x hx
    have := insertWalk_trace_bound (homeIndex t cur.key) fuel t cur
      (homeIndex t cur.key) res tr h hidx2 (by omega) (by omega) x hx
    omega

/-- Witness for `c8_probe_in_bounds` on the concrete table `TA2`
(capacity 4, probe bound 2, 6 slots), searching and inserting the key "e". -/
theorem c8_probe_in_bounds_witness :
    (∀ x ∈ (searchFrom TA2 kA3 (homeIndex TA2 kA3) 0 TA2.maxprobes).2,
      x < TA2.totalsize) ∧
    (∀ res tr, insertWalk 4 TA2 (pair_init kA3 3)
        (homeIndex TA2 (pair_init kA3 3).key) = some (res, tr) →
      ∀ x ∈ tr, x < TA2.totalsize) :=
  c8_probe_in_bounds TA2 kA3 (pair_init kA3 3) 4 (by decide)

theorem ilog2Go_congr : ∀ f g n, n ≤ f → n ≤ g → ilog2Go f n = ilog2Go g n := by
  intro f
  induction f with
  | zero =>
    intro g n h1 h2
    have hn : n = 0 := by omega
    subst hn
    cases g with
    | zero => rfl
    | succ g2 => simp [ilog2Go]
  | succ f2 ih =>
    intro g n h1 h2
    cases g with
    | zero =>
      have hn : n = 0 := by omega
      subst hn
      simp [ilog2Go]
    | succ g2 =>
      by_cases h : 2 ≤ n
      · have e1 : ilog2Go (f2 + 1) n = ilog2Go f2 (n / 2) + 1 := by
          simp [ilog2Go, h]
        have e2 : ilog2Go (g2 + 1) n = ilog2Go g2 (n / 2) + 1 := by
          simp [ilog2Go, h]
        rw [e1, e2, ih g2 (n / 2) (by omega) (by omega)]
      · simp [ilog2Go, h]

/-- Doubling the capacity increases the probe bound by exactly one:
`ilog2(n * 2) = ilog2 n + 1` for positive `n`. -/
theorem arch_ilog2_double (n : Nat) (h : 1 ≤ n) :
    arch_ilog2 (n * 2) = arch_ilog2 n + 1 := by
  unfold arch_ilog2
  obtain ⟨m, hm⟩ : ∃ m, n * 2 = m + 1 := ⟨n * 2 - 1, by omega⟩
  rw [hm]
  have e1 : ilog2Go (m + 1) (m + 1) = ilog2Go m ((m + 1) / 2) + 1 := by
    simp [ilog2Go, show 2 ≤ m + 1 by omega]
  rw [e1, show (m + 1) / 2 = n by omega,
    ilog2Go_congr m n n (by omega) (Nat.le_refl _)]

theorem insertStep_placed_spec (t : HashTable) (cur : Pair) (i : Nat)
    (t' : HashTable) (s : Nat)
    (h : insertStep t cur i = .placed t' s) :
    t'.size = t.size ∧ t'.maxprobes = t.maxprobes := by
  unfold insertStep at h
  by_cases h1 : (t.pairs.getD i noPair).dist = PAIR_FREE
  · rw [if_pos h1] at h
    injection h with ha hb
    subst ha
    exact ⟨rfl, rfl⟩
  · rw [if_neg h1] at h
    by_cases h2 : (t.pairs.getD i noPair).dist > cur.dist
    · rw [if_pos h2] at h
      unfold insertStepPost at h
      by_cases h3 : (t.pairs.getD i noPair).dist ≥ t.maxprobes
      · rw [if_pos h3] at h; cases h
      · rw [if_neg h3] at h
        by_cases h4 : cur.dist = (t.pairs.getD i noPair).dist ∧
            cur.key = (t.pairs.getD i noPair).key
        · rw [if_pos h4] at h; cases h
        · rw [if_neg h4] at h; cases h
    · rw [if_neg h2] at h
      unfold insertStepPost at h
      by_cases h3 : cur.dist ≥ t.maxprobes
      · rw [if_pos h3] at h; cases h
      · rw [if_neg h3] at h
        by_cases h4 : (t.pairs.getD i noPair).dist = cur.dist ∧
            (t.pairs.getD i noPair).key = cur.key
        · rw [if_pos h4] at h; cases h
        · rw [if_neg h4] at h; cases h

theorem insertStep_needResize_spec (t : HashTable) (cur : Pair) (i : Nat)
    (t' : HashTable) (c : Pair)
    (h : insertStep t cur i = .needResize t' c) :
    t'.size = t.size ∧ t'.maxprobes = t.maxprobes := by
  unfold insertStep at h
  by_cases h1 : (t.pairs.getD i noPair).dist = PAIR_FREE
  · rw [if_pos h1] at h; cases h
  · rw [if_neg h1] at h
    by_cases h2 : (t.pairs.getD i noPair).dist > cur.dist
    · rw [if_pos h2] at h
      unfold insertStepPost at h
      by_cases h3 : (t.pairs.getD i noPair).dist ≥ t.maxprobes
      · rw [if_pos h3] at h
        injection h with ha hb
        subst ha
        exact ⟨rfl, rfl⟩
      · rw [if_neg h3] at h
        by_cases h4 : cur.dist = (t.pairs.getD i noPair).dist ∧
            cur.key = (t.pairs.getD i noPair).key
        · rw [if_pos h4] at h; cases h
        · rw [if_neg h4] at h; cases h
    · rw [if_neg h2] at h
      unfold insertStepPost at h
      by_cases h3 : cur.dist ≥ t.maxprobes
      · rw [if_pos h3] at h
        injection h with ha hb
        subst ha
        exact ⟨rfl, rfl⟩
      · rw [if_neg h3] at h
        by_cases h4 : (t.pairs.getD i noPair).dist = cur.dist ∧
            (t.pairs.getD i noPair).key = cur.key
        · rw [if_pos h4] at h; cases h
        · rw [if_neg h4] at h; cases h

theorem insertWalk_fields : ∀ (fuel : Nat) (t : HashTable) (cur : Pair)
    (i : Nat) (res : WalkResult) (tr : List Nat),
    insertWalk fuel t cur i = some (res, tr) →
    (∀ t2 s, res = .placed t2 s →
      t2.size = t.size ∧ t2.maxprobes = t.maxprobes) ∧
    (∀ t2, res = .dup t2 → t2.size = t.size ∧ t2.maxprobes = t.maxprobes) ∧
    (∀ t2 c, res = .needResize t2 c →
      t2.size = t.size ∧ t2.maxprobes = t.maxprobes) := by
  intro fuel
  induction fuel with
  | zero =>
    intro t cur i res tr h
    cases h
  | succ f ih =>
    intro t cur i res tr h
    cases hstep : insertStep t cur i with
    | placed t2 s =>
      simp only [insertWalk, hstep] at h
      injection h with h'
      injection h' with h1 h2
      subst h1
      refine ⟨?_, ?_, ?_⟩
      · intro t3 s3 h3
        injection h3 with h4 h5
        subst h4
        exact insertStep_placed_spec t cur i t2 s hstep
      · intro t3 h3
        cases h3
      · intro t3 c3 h3
        cases h3
    | dup =>
      simp only [insertWalk, hstep] at h
      injection h with h'
      injection h' with h1 h2
      subst h1
      refine ⟨?_, ?_, ?_⟩
      · intro t3 s3 h3; cases h3
      · intro t3 h3
        injection h3 with h4
        subst h4
        exact ⟨rfl, rfl⟩
      · intro t3 c3 h3; cases h3
    | needResize t2 c =>
      simp only [insertWalk, hstep] at h
      injection h with h'
      injection h' with h1 h2
      subst h1
      refine ⟨?_, ?_, ?_⟩
      · intro t3 s3 h3; cases h3
      · intro t3 h3; cases h3
      · intro t3 c3 h3
        injection h3 with h4 h5
        subst h4
        exact insertStep_needResize_spec t cur i t2 c hstep
    | next t2 c =>
      simp only [insertWalk, hstep] at h
      obtain ⟨hn1, hn2, hn3, hn4⟩ := insertStep_next_spec t cur i t2 c hstep
      cases hrec : insertWalk f t2 { c with dist := c.dist + 1 } (i + 1) with
      | none =>
        rw [hrec] at h
        cases h
      | some rt =>
        obtain ⟨r2, tr2⟩ := rt
        rw [hrec] at h
        injection h with h'
        injection h' with h1 h2
        subst h1
        obtain ⟨ha, hb, hc⟩ := ih t2 { c with dist := c.dist + 1 } (i + 1)
          r2 tr2 hrec
        refine ⟨?_, ?_, ?_⟩
        · intro t3 s3 h3
          obtain ⟨x1, x2⟩ := ha t3 s3 h3
          exact ⟨x1.trans hn3, x2.trans hn4⟩
        · intro t3 h3
          obtain ⟨x1, x2⟩ := hb t3 h3
          exact ⟨x1.trans hn3, x2.trans hn4⟩
        · intro t3 c3 h3
          obtain ⟨x1, x2⟩ := hc t3 c3 h3
          exact ⟨x1.trans hn3, x2.trans hn4⟩

theorem run_tblInv_mono : ∀ f : Nat,
    (∀ t cur seeds r t' seeds',
      run f (.ins t cur seeds) = some (.insR r t' seeds') → TblInv t →
      TblInv t' ∧ t.maxprobes ≤ t'.maxprobes) ∧
    (∀ t cur seeds r t' seeds',
      run f (.go t cur seeds) = some (.insR r t' seeds') → TblInv t →
      TblInv t' ∧ t.maxprobes ≤ t'.maxprobes) ∧
    (∀ t seeds t' seeds',
      run f (.rsz t seeds) = some (.rszR t' seeds') → TblInv t →
      TblInv t' ∧ t.maxprobes < t'.maxprobes) ∧
    (∀ t seeds items t' seeds',
      run f (.rlist t seeds items) = some (.rszR t' seeds') → TblInv t →
      TblInv t' ∧ t.maxprobes ≤ t'.maxprobes) := by
  intro f
  induction f with
  | zero =>
    refine ⟨?_, ?_, ?_, ?_⟩
    · intro t cur seeds r t' seeds' h; cases h
    · intro t cur seeds r t' seeds' h; cases h
    · intro t seeds t' seeds' h; cases h
    · intro t seeds items t' seeds' h; cases h
  | succ f ih =>
    obtain ⟨ihIns, ihGo, ihRsz, ihRlist⟩ := ih
    have hGo : ∀ t cur seeds r t' seeds',
        run (f + 1) (.go t cur seeds) = some (.insR r t' seeds') → TblInv t →
        TblInv t' ∧ t.maxprobes ≤ t'.maxprobes := by
      intro t cur seeds r t' seeds' h hI
      rw [run_go] at h
      split at h
      case _ t2 s tr0 hw =>
        injection h with h'
        injection h' with h1 h2 h3
        subst h2
        obtain ⟨hwp, -, -⟩ := insertWalk_fields (t.maxprobes + 2) t cur
          (homeIndex t cur.key) (.placed t2 s) tr0 hw
        obtain ⟨x1, x2⟩ := hwp t2 s rfl
        rw [TblInv, x1, x2]
        exact ⟨hI, Nat.le_refl _⟩
      case _ t2 tr0 hw =>
        injection h with h'
        injection h' with h1 h2 h3
        subst h2
        obtain ⟨-, hwd, -⟩ := insertWalk_fields (t.maxprobes + 2) t cur
          (homeIndex t cur.key) (.dup t2) tr0 hw
        obtain ⟨x1, x2⟩ := hwd t2 rfl
        rw [TblInv, x1, x2]
        exact ⟨hI, Nat.le_refl _⟩
      case _ t2 c tr0 hw =>
        obtain ⟨-, -, hwn⟩ := insertWalk_fields (t.maxprobes + 2) t cur
          (homeIndex t cur.key) (.needResize t2 c) tr0 hw
        obtain ⟨x1, x2⟩ := hwn t2 c rfl
        split at h
        case _ t3 s3 hr =>
          have hI2 : TblInv t2 := by rw [TblInv, x1, x2]; exact hI
          obtain ⟨hI3, hlt⟩ := ihRsz t2 seeds t3 s3 hr hI2
          obtain ⟨hI4, hle⟩ := ihGo t3 { c with dist := DIST_IDEAL }
            s3 r t' seeds' h hI3
          exact ⟨hI4, by omega⟩
        case _ hne hr => cases h
      case _ hw => cases h
    refine ⟨?_, hGo, ?_, ?_⟩
    · intro t cur seeds r t' seeds' h hI
      rw [run_ins] at h
      by_cases hp : t.numpairs ≥ t.maxpairs
      · rw [if_pos hp] at h
        split at h
        case _ t3 s3 hr =>
          obtain ⟨hI3, hlt⟩ := ihRsz t seeds t3 s3 hr hI
          obtain ⟨hI4, hle⟩ := ihGo t3 cur s3 r t' seeds' h hI3
          exact ⟨hI4, by omega⟩
        case _ hne hr => cases h
      · rw [if_neg hp] at h
        exact ihGo t cur seeds r t' seeds' h hI
    · intro t seeds t' seeds' h hI
      rw [run_rsz] at h
      have hInit : TblInv (hash_table_init (t.size * 2) (t.maxpairs * 2)
          (seeds.headD 0)) := by
        constructor
        · rfl
        · show 1 ≤ t.size * 2
          obtain ⟨-, h2⟩ := hI
          omega
      obtain ⟨hI2, hle⟩ := ihRlist _ seeds.tail (liveItems t) t' seeds' h hInit
      refine ⟨hI2, ?_⟩
      have hdbl : (hash_table_init (t.size * 2) (t.maxpairs * 2)
          (seeds.headD 0)).maxprobes = arch_ilog2 t.size + 1 := by
        show arch_ilog2 (t.size * 2) = arch_ilog2 t.size + 1
        exact arch_ilog2_double t.size hI.2
      rw [hdbl] at hle
      obtain ⟨h1, -⟩ := hI
      omega
    · intro t seeds items t' seeds' h hI
      cases items with
      | nil =>
        rw [run_rlist_nil] at h
        injection h with h'
        injection h' with h1 h2
        subst h1
        exact ⟨hI, Nat.le_refl _⟩
      | cons q rest =>
        rw [run_rlist_cons] at h
        split at h
        case _ r1 t3 s3 hr =>
          obtain ⟨hI3, hle1⟩ := ihIns t q seeds r1 t3 s3 hr hI
          obtain ⟨hI4, hle2⟩ := ihRlist t3 s3 rest t' seeds' h hI3
          exact ⟨hI4, by omega⟩
        case _ hne hr => cases h

/-! ### Termination of the insert/resize recursion: bookkeeping lemmas -/

theorem getD_toList (a : Array Pair) (i : Nat) (d : Pair) :
    a.getD i d = a.toList.getD i d := by
  rw [Array.getD_eq_get?, List.getD_eq_getElem?_getD]
  rfl

theorem getD_oob (a : Array Pair) (i : Nat) (d : Pair) (h : a.size ≤ i) :
    a.getD i d = d := by
  rw [Array.getD_eq_get?, Array.getElem?_ge a h]
  rfl

theorem getD_not_free_lt (t : HashTable) (i : Nat)
    (h : (t.pairs.getD i noPair).dist ≠ PAIR_FREE) : i < t.pairs.size := by
  by_contra hge
  rw [getD_oob t.pairs i noPair (by omega)] at h
  exact h rfl

theorem setD_oob (a : Array Pair) (i : Nat) (v : Pair) (h : a.size ≤ i) :
    a.setD i v = a := by
  unfold Array.setD
  rw [dif_neg (by omega)]

theorem toList_setD (a : Array Pair) (i : Nat) (v : Pair) (h : i < a.size) :
    (a.setD i v).toList = a.toList.set i v := by
  unfold Array.setD
  rw [dif_pos h]
  rfl

theorem liveCount_eq_countP (t : HashTable) :
    liveCount t =
      t.pairs.toList.countP (fun p => decide (p.dist ≠ PAIR_FREE)) := by
  unfold liveCount liveItems
  rw [List.length_map, ← List.countP_eq_length_filter]

theorem liveCount_pairs_eq (t t' : HashTable) (h : t'.pairs = t.pairs) :
    liveCount t' = liveCount t := by
  rw [liveCount_eq_countP, liveCount_eq_countP, h]

theorem liveCount_setD_keep (t : HashTable) (i : Nat) (v : Pair)
    (hold : (t.pairs.getD i noPair).dist ≠ PAIR_FREE)
    (hnew : v.dist ≠ PAIR_FREE) :
    liveCount { t with pairs := t.pairs.setD i v } = liveCount t := by
  have hi : i < t.pairs.size := getD_not_free_lt t i hold
  have hi' : i < t.pairs.toList.length := hi
  have e : ({ t with pairs := t.pairs.setD i v } : HashTable).pairs =
      t.pairs.setD i v := rfl
  rw [liveCount_eq_countP, liveCount_eq_countP, e, toList_setD t.pairs i v hi,
    List.countP_set _ _ _ _ hi']
  have hPold : (fun p => decide (p.dist ≠ PAIR_FREE))
      t.pairs.toList[i] = true := by
    apply decide_eq_true
    rw [← List.getD_eq_getElem t.pairs.toList noPair hi', ← getD_toList]
    exact hold
  have hPnew : (fun p => decide (p.dist ≠ PAIR_FREE)) v = true :=
    decide_eq_true hnew
  rw [if_pos hPold, if_pos hPnew]
  have hpos :
      0 < t.pairs.toList.countP (fun p => decide (p.dist ≠ PAIR_FREE)) :=
    List.countP_pos_iff.mpr ⟨t.pairs.toList[i], List.getElem_mem hi', hPold⟩
  omega

theorem liveCount_setD_add (t : HashTable) (i : Nat) (v : Pair)
    (hi : i < t.pairs.size)
    (hold : (t.pairs.getD i noPair).dist = PAIR_FREE)
    (hnew : v.dist ≠ PAIR_FREE) :
    liveCount { t with pairs := t.pairs.setD i v } = liveCount t + 1 := by
  have hi' : i < t.pairs.toList.length := hi
  have e : ({ t with pairs := t.pairs.setD i v } : HashTable).pairs =
      t.pairs.setD i v := rfl
  rw [liveCount_eq_countP, liveCount_eq_countP, e, toList_setD t.pairs i v hi,
    List.countP_set _ _ _ _ hi']
  have hPold : (fun p => decide (p.dist ≠ PAIR_FREE))
      t.pairs.toList[i] = false := by
    apply decide_eq_false
    intro hne
    apply hne
    rw [← List.getD_eq_getElem t.pairs.toList noPair hi', ← getD_toList]
    exact hold
  have hcond : ¬ ((fun p => decide (p.dist ≠ PAIR_FREE))
      t.pairs.toList[i] = true) := by
    rw [hPold]
    exact Bool.false_ne_true
  have hPnew : (fun p => decide (p.dist ≠ PAIR_FREE)) v = true :=
    decide_eq_true hnew
  rw [if_neg hcond, if_pos hPnew]
  omega

theorem countP_consecutive : ∀ (l : List Pair) (i n : Nat),
    (∀ k, k ≤ n → (l.getD (i + k) noPair).dist ≠ PAIR_FREE) →
    n + 1 ≤ l.countP (fun p => decide (p.dist ≠ PAIR_FREE)) := by
  intro l
  induction l with
  | nil =>
    intro i n h
    exact absurd rfl (h 0 (Nat.zero_le _))
  | cons x xs ih =>
    intro i n h
    cases i with
    | zero =>
      have hx : x.dist ≠ PAIR_FREE := h 0 (Nat.zero_le _)
      have hPx : (fun p => decide (p.dist ≠ PAIR_FREE)) x = true :=
        decide_eq_true hx
      rw [List.countP_cons, if_pos hPx]
      cases n with
      | zero => omega
      | succ n =>
        have hxs : ∀ k, k ≤ n → (xs.getD (0 + k) noPair).dist ≠ PAIR_FREE := by
          intro k hk
          have hx1 := h (k + 1) (by omega)
          have e : ((x :: xs).getD (0 + (k + 1)) noPair) =
              xs.getD (0 + k) noPair := by
            rw [Nat.zero_add, Nat.zero_add]
            rfl
          rw [e] at hx1
          exact hx1
        have := ih 0 n hxs
        omega
    | succ i =>
      have hxs : ∀ k, k ≤ n → (xs.getD (i + k) noPair).dist ≠ PAIR_FREE := by
        intro k hk
        have hx1 := h k hk
        have e : ((x :: xs).getD (i + 1 + k) noPair) =
            xs.getD (i + k) noPair := by
          rw [show i + 1 + k = (i + k) + 1 by omega]
          rfl
        rw [e] at hx1
        exact hx1
      have := ih i n hxs
      rw [List.countP_cons]
      omega

theorem free_within (t : HashTable) (n : Nat) (hn : liveCount t ≤ n)
    (i : Nat) :
    ∃ k, k ≤ n ∧ (t.pairs.getD (i + k) noPair).dist = PAIR_FREE := by
  by_contra hc
  push_neg at hc
  have hge : n + 1 ≤ liveCount t := by
    rw [liveCount_eq_countP]
    apply countP_consecutive
    intro k hk
    rw [← getD_toList]
    exact hc k hk
  omega

theorem DBound_mono (t : HashTable) (d d' : Nat) (h : DBound t d)
    (hd : d ≤ d') : DBound t d' := by
  intro i
  rcases h i with h1 | h2
  · exact Or.inl h1
  · exact Or.inr (le_trans h2 hd)

theorem Rebuilt_mono (E : Nat) (t : HashTable) (j j' : Nat)
    (h : Rebuilt E t j) (hj : j ≤ j') : Rebuilt E t j' := by
  obtain ⟨h1, h2, h3⟩ := h
  exact ⟨DBound_mono t _ _ h1 (Nat.mul_le_mul_left E hj), h2, le_trans h3 hj⟩

theorem sameShape_refl (t : HashTable) : sameShape t t :=
  ⟨rfl, rfl, rfl, rfl, rfl, rfl⟩

theorem sameShape_trans (t1 t2 t3 : HashTable) (h1 : sameShape t1 t2)
    (h2 : sameShape t2 t3) : sameShape t1 t3 :=
  ⟨h2.1.trans h1.1, h2.2.1.trans h1.2.1, h2.2.2.1.trans h1.2.2.1,
    h2.2.2.2.1.trans h1.2.2.2.1, h2.2.2.2.2.1.trans h1.2.2.2.2.1,
    h2.2.2.2.2.2.trans h1.2.2.2.2.2⟩

theorem sameShape_WF (t t' : HashTable) (hs : sameShape t t') (h : WF t) :
    WF t' := by
  obtain ⟨a1, a2, a3, a4, a5, a6⟩ := hs
  obtain ⟨b1, b2, b3, b4⟩ := h
  refine ⟨?_, ?_, ?_, ?_⟩
  · rw [a6, a2]; exact b1
  · rw [a2, a1, a4]; exact b2
  · rw [a1]; exact b3
  · rw [a4]; exact b4

theorem sameShape_TblInv (t t' : HashTable) (hs : sameShape t t')
    (h : TblInv t) : TblInv t' := by
  obtain ⟨a1, a2, a3, a4, a5, a6⟩ := hs
  obtain ⟨b1, b2⟩ := h
  exact ⟨by rw [a4, a1]; exact b1, by rw [a1]; exact b2⟩

theorem sameShape_budget (E : Nat) (t t' : HashTable) (hs : sameShape t t') :
    resizeBudget E t' = resizeBudget E t := by
  obtain ⟨a1, a2, a3, a4, a5, a6⟩ := hs
  unfold resizeBudget
  rw [a3, a4]

theorem sameShape_GoodTable (E : Nat) (t t' : HashTable)
    (hs : sameShape t t') (h : GoodTable E t) : GoodTable E t' := by
  obtain ⟨b1, b2, b3, b4⟩ := h
  refine ⟨sameShape_WF t t' hs b1, sameShape_TblInv t t' hs b2, ?_, ?_⟩
  · rw [hs.2.2.1]; exact b3
  · rw [hs.2.2.2.1, sameShape_budget E t t' hs]; exact b4

theorem init_getD_free (s m sd i : Nat) :
    (hash_table_init s m sd).pairs.getD i noPair = noPair := by
  show (Array.mkArray (s + arch_ilog2 s) noPair).getD i noPair = noPair
  rw [Array.getD_eq_get?, Array.getElem?_mkArray]
  split
  · rfl
  · rfl

theorem init_liveCount (s m sd : Nat) :
    liveCount (hash_table_init s m sd) = 0 := by
  rw [liveCount_eq_countP]
  show ((Array.mkArray (s + arch_ilog2 s) noPair).toList.countP
    (fun p => decide (p.dist ≠ PAIR_FREE))) = 0
  rw [Array.toList_mkArray, List.countP_eq_zero]
  intro a ha
  rw [List.mem_replicate] at ha
  rw [ha.2]
  intro hc
  exact (of_decide_eq_true hc) rfl

theorem liveItems_dist0 (t : HashTable) :
    ∀ q ∈ liveItems t, q.dist = DIST_IDEAL := by
  intro q hq
  unfold liveItems at hq
  rw [List.mem_map] at hq
  obtain ⟨p, -, rfl⟩ := hq
  rfl

theorem run_mono : ∀ (f : Nat) (op : Op) (r : OpRes),
    run f op = some r → run (f + 1) op = some r := by
  intro f
  induction f with
  | zero =>
    intro op r h
    cases h
  | succ f ih =>
    intro op r h
    cases op with
    | ins t cur seeds =>
      rw [run_ins] at h
      rw [run_ins]
      by_cases hp : t.numpairs ≥ t.maxpairs
      · rw [if_pos hp] at h
        rw [if_pos hp]
        split at h
        case _ t2 s2 hr =>
          rw [ih _ _ hr]
          exact ih _ _ h
        case _ hne hr => cases h
      · rw [if_neg hp] at h
        rw [if_neg hp]
        exact ih _ _ h
    | go t cur seeds =>
      rw [run_go] at h
      rw [run_go]
      split at h
      case _ t2 s2 tr0 hw =>
        exact h
      case _ t2 tr0 hw =>
        exact h
      case _ t2 c2 tr0 hw =>
        split at h
        case _ t3 s3 hr =>
          rw [ih _ _ hr]
          exact ih _ _ h
        case _ hne hr => cases h
      case _ hw => cases h
    | rsz t seeds =>
      rw [run_rsz] at h
      rw [run_rsz]
      exact ih _ _ h
    | rlist t seeds items =>
      cases items with
      | nil =>
        rw [run_rlist_nil] at h
        rw [run_rlist_nil]
        exact h
      | cons q rest =>
        rw [run_rlist_cons] at h
        rw [run_rlist_cons]
        split at h
        case _ r1 t2 s2 hr =>
          rw [ih _ _ hr]
          exact ih _ _ h
        case _ hne hr => cases h

theorem run_mono_le (f g : Nat) (op : Op) (r : OpRes) (hle : f ≤ g)
    (h : run f op = some r) : run g op = some r := by
  induction g with
  | zero =>
    have hf : f = 0 := by omega
    subst hf
    exact h
  | succ g ihg =>
    rcases Nat.lt_or_ge f (g + 1) with hlt | hge
    · exact run_mono g op r (ihg (by omega))
    · have hf : f = g + 1 := by omega
      subst hf
      exact h

theorem insertWalk_total : ∀ (fuel : Nat) (t : HashTable) (cur : Pair)
    (i : Nat), 1 ≤ fuel → t.maxprobes + 1 ≤ fuel + cur.dist →
    ∃ res tr, insertWalk fuel t cur i = some (res, tr) := by
  intro fuel
  induction fuel with
  | zero =>
    intro t cur i h1 h2
    omega
  | succ f ih =>
    intro t cur i h1 h2
    cases hstep : insertStep t cur i with
    | placed t2 s =>
      exact ⟨.placed t2 s, [i], by simp only [insertWalk, hstep]⟩
    | dup =>
      exact ⟨.dup t, [i], by simp only [insertWalk, hstep]⟩
    | needResize t2 c =>
      exact ⟨.needResize t2 c, [i], by simp only [insertWalk, hstep]⟩
    | next t2 c =>
      obtain ⟨hc1, hc2, hc3, hc4⟩ := insertStep_next_spec t cur i t2 c hstep
      obtain ⟨res, tr, hrec⟩ := ih t2 { c with dist := c.dist + 1 } (i + 1)
        (by omega)
        (by rw [hc4]; show t.maxprobes + 1 ≤ f + (c.dist + 1); omega)
      exact ⟨res, i :: tr, by simp only [insertWalk, hstep, hrec]⟩

theorem reserved_lt_free : PAIR_RESERVED < PAIR_FREE := by decide

theorem insertStep_placed_facts (t : HashTable) (cur : Pair) (i : Nat)
    (t2 : HashTable) (s : Nat) (hW : WF t) (hcd : cur.dist ≤ t.maxprobes)
    (h : insertStep t cur i = .placed t2 s) :
    sameShape t t2 ∧ t2.numpairs = t.numpairs + 1 ∧
    liveCount t2 ≤ liveCount t + 1 := by
  have hcfree : cur.dist ≠ PAIR_FREE := by
    obtain ⟨-, -, -, hmb⟩ := hW
    have := reserved_lt_free
    omega
  unfold insertStep at h
  by_cases h1 : (t.pairs.getD i noPair).dist = PAIR_FREE
  · rw [if_pos h1] at h
    injection h with ha hb
    subst ha
    refine ⟨⟨rfl, rfl, rfl, rfl, rfl, Array.size_setD _ _ _⟩, rfl, ?_⟩
    rcases Nat.lt_or_ge i t.pairs.size with hib | hoob
    · have e2 : liveCount { t with
          pairs := t.pairs.setD i cur, numpairs := t.numpairs + 1 } =
          liveCount { t with pairs := t.pairs.setD i cur } := by
        apply liveCount_pairs_eq
        rfl
      rw [e2, liveCount_setD_add t i cur hib h1 hcfree]
    · have e2 : liveCount { t with
          pairs := t.pairs.setD i cur, numpairs := t.numpairs + 1 } =
          liveCount t := by
        apply liveCount_pairs_eq
        show t.pairs.setD i cur = t.pairs
        exact setD_oob t.pairs i cur hoob
      omega
  · rw [if_neg h1] at h
    by_cases h2 : (t.pairs.getD i noPair).dist > cur.dist
    · rw [if_pos h2] at h
      unfold insertStepPost at h
      by_cases h3 : (t.pairs.getD i noPair).dist ≥ t.maxprobes
      · rw [if_pos h3] at h; cases h
      · rw [if_neg h3] at h
        by_cases h4 : cur.dist = (t.pairs.getD i noPair).dist ∧
            cur.key = (t.pairs.getD i noPair).key
        · rw [if_pos h4] at h; cases h
        · rw [if_neg h4] at h; cases h
    · rw [if_neg h2] at h
      unfold insertStepPost at h
      by_cases h3 : cur.dist ≥ t.maxprobes
      · rw [if_pos h3] at h; cases h
      · rw [if_neg h3] at h
        by_cases h4 : (t.pairs.getD i noPair).dist = cur.dist ∧
            (t.pairs.getD i noPair).key = cur.key
        · rw [if_pos h4] at h; cases h
        · rw [if_neg h4] at h; cases h

theorem insertStep_needResize_facts (t : HashTable) (cur : Pair) (i : Nat)
    (t2 : HashTable) (c : Pair) (hW : WF t) (hcd : cur.dist ≤ t.maxprobes)
    (h : insertStep t cur i = .needResize t2 c) :
    sameShape t t2 ∧ t2.numpairs = t.numpairs ∧
    liveCount t2 = liveCount t := by
  have hcfree : cur.dist ≠ PAIR_FREE := by
    obtain ⟨-, -, -, hmb⟩ := hW
    have := reserved_lt_free
    omega
  unfold insertStep at h
  by_cases h1 : (t.pairs.getD i noPair).dist = PAIR_FREE
  · rw [if_pos h1] at h; cases h
  · rw [if_neg h1] at h
    by_cases h2 : (t.pairs.getD i noPair).dist > cur.dist
    · rw [if_pos h2] at h
      unfold insertStepPost at h
      by_cases h3 : (t.pairs.getD i noPair).dist ≥ t.maxprobes
      · rw [if_pos h3] at h
        injection h with ha hb
        subst ha
        exact ⟨⟨rfl, rfl, rfl, rfl, rfl, Array.size_setD _ _ _⟩, rfl,
          liveCount_setD_keep t i cur h1 hcfree⟩
      · rw [if_neg h3] at h
        by_cases h4 : cur.dist = (t.pairs.getD i noPair).dist ∧
            cur.key = (t.pairs.getD i noPair).key
        · rw [if_pos h4] at h; cases h
        · rw [if_neg h4] at h; cases h
    · rw [if_neg h2] at h
      unfold insertStepPost at h
      by_cases h3 : cur.dist ≥ t.maxprobes
      · rw [if_pos h3] at h
        injection h with ha hb
        subst ha
        exact ⟨sameShape_refl t, rfl, rfl⟩
      · rw [if_neg h3] at h
        by_cases h4 : (t.pairs.getD i noPair).dist = cur.dist ∧
            (t.pairs.getD i noPair).key = cur.key
        · rw [if_pos h4] at h; cases h
        · rw [if_neg h4] at h; cases h

theorem insertStep_next_facts (t : HashTable) (cur : Pair) (i : Nat)
    (t2 : HashTable) (c : Pair) (hW : WF t) (hcd : cur.dist ≤ t.maxprobes)
    (h : insertStep t cur i = .next t2 c) :
    sameShape t t2 ∧ t2.numpairs = t.numpairs ∧
    liveCount t2 = liveCount t ∧ c.dist < t.maxprobes ∧
    cur.dist ≤ c.dist := by
  have hcfree : cur.dist ≠ PAIR_FREE := by
    obtain ⟨-, -, -, hmb⟩ := hW
    have := reserved_lt_free
    omega
  unfold insertStep at h
  by_cases h1 : (t.pairs.getD i noPair).dist = PAIR_FREE
  · rw [if_pos h1] at h; cases h
  · rw [if_neg h1] at h
    by_cases h2 : (t.pairs.getD i noPair).dist > cur.dist
    · rw [if_pos h2] at h
      unfold insertStepPost at h
      by_cases h3 : (t.pairs.getD i noPair).dist ≥ t.maxprobes
      · rw [if_pos h3] at h; cases h
      · rw [if_neg h3] at h
        by_cases h4 : cur.dist = (t.pairs.getD i noPair).dist ∧
            cur.key = (t.pairs.getD i noPair).key
        · rw [if_pos h4] at h; cases h
        · rw [if_neg h4] at h
          injection h with ha hb
          subst ha
          subst hb
          exact ⟨⟨rfl, rfl, rfl, rfl, rfl, Array.size_setD _ _ _⟩, rfl,
            liveCount_setD_keep t i cur h1 hcfree, by omega, by omega⟩
    · rw [if_neg h2] at h
      unfold insertStepPost at h
      by_cases h3 : cur.dist ≥ t.maxprobes
      · rw [if_pos h3] at h; cases h
      · rw [if_neg h3] at h
        by_cases h4 : (t.pairs.getD i noPair).dist = cur.dist ∧
            (t.pairs.getD i noPair).key = cur.key
        · rw [if_pos h4] at h; cases h
        · rw [if_neg h4] at h
          injection h with ha hb
          subst ha
          subst hb
          exact ⟨sameShape_refl t, rfl, rfl, by omega, Nat.le_refl _⟩

theorem insertWalk_posts : ∀ (fuel : Nat) (t : HashTable) (cur : Pair)
    (i : Nat) (res : WalkResult) (tr : List Nat),
    WF t → cur.dist ≤ t.maxprobes →
    insertWalk fuel t cur i = some (res, tr) →
    (∀ t2 s, res = .placed t2 s → sameShape t t2 ∧
      t2.numpairs = t.numpairs + 1 ∧ liveCount t2 ≤ liveCount t + 1) ∧
    (∀ t2, res = .dup t2 → sameShape t t2 ∧
      t2.numpairs = t.numpairs ∧ liveCount t2 = liveCount t) ∧
    (∀ t2 c, res = .needResize t2 c → sameShape t t2 ∧
      t2.numpairs = t.numpairs ∧ liveCount t2 = liveCount t) := by
  intro fuel
  induction fuel with
  | zero =>
    intro t cur i res tr hW hcd h
    cases h
  | succ f ih =>
    intro t cur i res tr hW hcd h
    cases hstep : insertStep t cur i with
    | placed t2 s =>
      simp only [insertWalk, hstep] at h
      injection h with h'
      injection h' with h1 h2
      subst h1
      obtain ⟨x1, x2, x3⟩ := insertStep_placed_facts t cur i t2 s hW hcd hstep
      refine ⟨?_, ?_, ?_⟩
      · intro t3 s3 h3
        injection h3 with h4 h5
        subst h4
        exact ⟨x1, x2, x3⟩
      · intro t3 h3; cases h3
      · intro t3 c3 h3; cases h3
    | dup =>
      simp only [insertWalk, hstep] at h
      injection h with h'
      injection h' with h1 h2
      subst h1
      refine ⟨?_, ?_, ?_⟩
      · intro t3 s3 h3; cases h3
      · intro t3 h3
        injection h3 with h4
        subst h4
        exact ⟨sameShape_refl t, rfl, rfl⟩
      · intro t3 c3 h3; cases h3
    | needResize t2 c =>
      simp only [insertWalk, hstep] at h
      injection h with h'
      injection h' with h1 h2
      subst h1
      obtain ⟨x1, x2, x3⟩ :=
        insertStep_needResize_facts t cur i t2 c hW hcd hstep
      refine ⟨?_, ?_, ?_⟩
      · intro t3 s3 h3; cases h3
      · intro t3 h3; cases h3
      · intro t3 c3 h3
        injection h3 with h4 h5
        subst h4
        exact ⟨x1, x2, x3⟩
    | next t2 c =>
      simp only [insertWalk, hstep] at h
      obtain ⟨x1, x2, x3, x4, x5⟩ :=
        insertStep_next_facts t cur i t2 c hW hcd hstep
      cases hrec : insertWalk f t2 { c with dist := c.dist + 1 } (i + 1) with
      | none => rw [hrec] at h; cases h
      | some rt =>
        obtain ⟨res2, tr2⟩ := rt
        rw [hrec] at h
        injection h with h'
        injection h' with h1 h2
        subst h1
        have hW2 : WF t2 := sameShape_WF t t2 x1 hW
        have hcd2 : ({ c with dist := c.dist + 1 } : Pair).dist ≤
            t2.maxprobes := by
          have e := x1.2.2.2.1
          show c.dist + 1 ≤ t2.maxprobes
          omega
        obtain ⟨ha, hb, hc2⟩ := ih t2 _ (i + 1) res2 tr2 hW2 hcd2 hrec
        refine ⟨?_, ?_, ?_⟩
        · intro t3 s3 h3
          obtain ⟨y1, y2, y3⟩ := ha t3 s3 h3
          refine ⟨sameShape_trans t t2 t3 x1 y1, ?_, by omega⟩
          rw [y2, x2]
        · intro t3 h3
          obtain ⟨y1, y2, y3⟩ := hb t3 h3
          refine ⟨sameShape_trans t t2 t3 x1 y1, ?_, by omega⟩
          rw [y2, x2]
        · intro t3 c3 h3
          obtain ⟨y1, y2, y3⟩ := hc2 t3 c3 h3
          refine ⟨sameShape_trans t t2 t3 x1 y1, ?_, by omega⟩
          rw [y2, x2]

theorem DBound_setD (t : HashTable) (i : Nat) (v : Pair) (c : Nat)
    (hD : DBound t c) (hv : v.dist ≤ c) (t' : HashTable)
    (hp : t'.pairs = t.pairs.setD i v) : DBound t' c := by
  intro idx
  rw [hp]
  rcases Nat.lt_or_ge i t.pairs.size with hib | hoob
  · by_cases hidx : idx = i
    · subst hidx
      rw [getD_setD_self t.pairs idx v noPair hib]
      exact Or.inr hv
    · rw [getD_setD_ne t.pairs i idx v noPair (fun hc => hidx hc.symm)]
      exact hD idx
  · rw [setD_oob t.pairs i v hoob]
    exact hD idx

theorem insertWalk_flat : ∀ (n fuel : Nat) (t : HashTable) (cur : Pair)
    (i c : Nat),
    WF t → DBound t c → cur.dist ≤ c →
    (∃ k, k ≤ n ∧ (t.pairs.getD (i + k) noPair).dist = PAIR_FREE) →
    c + n < t.maxprobes → i + n < t.pairs.size → n + 2 ≤ fuel →
    ∃ tr,
      (∃ t2 s, insertWalk fuel t cur i = some (.placed t2 s, tr) ∧
        sameShape t t2 ∧ DBound t2 (c + n) ∧
        t2.numpairs = t.numpairs + 1 ∧ liveCount t2 = liveCount t + 1) ∨
      (∃ t2, insertWalk fuel t cur i = some (.dup t2, tr) ∧
        sameShape t t2 ∧ DBound t2 (c + n) ∧
        t2.numpairs = t.numpairs ∧ liveCount t2 = liveCount t) := by
  have hrf := reserved_lt_free
  intro n
  induction n with
  | zero =>
    intro fuel t cur i c hW hD hcd hfw hbud hib hfuel
    obtain ⟨k, hk, hfr⟩ := hfw
    have hk0 : k = 0 := by omega
    subst hk0
    have hfree : (t.pairs.getD i noPair).dist = PAIR_FREE := hfr
    cases fuel with
    | zero => omega
    | succ f =>
      have hstep : insertStep t cur i =
          .placed { t with
            pairs := t.pairs.setD i cur, numpairs := t.numpairs + 1 } i := by
        unfold insertStep
        rw [if_pos hfree]
      have hnf : cur.dist ≠ PAIR_FREE := by
        obtain ⟨-, -, -, hmb⟩ := hW
        omega
      refine ⟨[i], Or.inl ⟨{ t with
        pairs := t.pairs.setD i cur, numpairs := t.numpairs + 1 }, i,
        by simp only [insertWalk, hstep],
        ⟨rfl, rfl, rfl, rfl, rfl, Array.size_setD _ _ _⟩, ?_, rfl, ?_⟩⟩
      · apply DBound_setD t i cur c hD (by omega)
        rfl
      · have e2 : liveCount { t with
            pairs := t.pairs.setD i cur, numpairs := t.numpairs + 1 } =
            liveCount { t with pairs := t.pairs.setD i cur } := by
          apply liveCount_pairs_eq
          rfl
        rw [e2, liveCount_setD_add t i cur (by omega) hfree hnf]
  | succ n ih =>
    intro fuel t cur i c hW hD hcd hfw hbud hib hfuel
    obtain ⟨k, hk, hfr⟩ := hfw
    cases fuel with
    | zero => omega
    | succ f =>
    by_cases hfree : (t.pairs.getD i noPair).dist = PAIR_FREE
    · have hstep : insertStep t cur i =
          .placed { t with
            pairs := t.pairs.setD i cur, numpairs := t.numpairs + 1 } i := by
        unfold insertStep
        rw [if_pos hfree]
      have hnf : cur.dist ≠ PAIR_FREE := by
        obtain ⟨-, -, -, hmb⟩ := hW
        omega
      refine ⟨[i], Or.inl ⟨{ t with
        pairs := t.pairs.setD i cur, numpairs := t.numpairs + 1 }, i,
        by simp only [insertWalk, hstep],
        ⟨rfl, rfl, rfl, rfl, rfl, Array.size_setD _ _ _⟩, ?_, rfl, ?_⟩⟩
      · apply DBound_setD t i cur (c + (n + 1)) (DBound_mono t c _ hD (by omega))
          (by omega)
        rfl
      · have e2 : liveCount { t with
            pairs := t.pairs.setD i cur, numpairs := t.numpairs + 1 } =
            liveCount { t with pairs := t.pairs.setD i cur } := by
          apply liveCount_pairs_eq
          rfl
        rw [e2, liveCount_setD_add t i cur (by omega) hfree hnf]
    · have hk1 : 1 ≤ k := by
        rcases Nat.eq_zero_or_pos k with rfl | hpos
        · exact absurd hfr hfree
        · exact hpos
      have hpc : (t.pairs.getD i noPair).dist ≤ c := by
        rcases hD i with h1 | h2
        · exact absurd h1 hfree
        · exact h2
      by_cases hswap : (t.pairs.getD i noPair).dist > cur.dist
      · -- robin hood swap, then continue carrying the displaced pair
        have hstep : insertStep t cur i =
            .next { t with pairs := t.pairs.setD i cur }
              (t.pairs.getD i noPair) := by
          unfold insertStep
          rw [if_neg hfree, if_pos hswap]
          apply insertStepPost_next
          · show ¬ (t.pairs.getD i noPair).dist ≥ t.maxprobes
            omega
          · intro hcon
            omega
        have hnf : cur.dist ≠ PAIR_FREE := by
          obtain ⟨-, -, -, hmb⟩ := hW
          omega
        have hshape2 : sameShape t { t with pairs := t.pairs.setD i cur } :=
          ⟨rfl, rfl, rfl, rfl, rfl, Array.size_setD _ _ _⟩
        have hW2 : WF { t with pairs := t.pairs.setD i cur } :=
          sameShape_WF t _ hshape2 hW
        have hD2 : DBound { t with pairs := t.pairs.setD i cur } (c + 1) := by
          apply DBound_setD t i cur (c + 1) (DBound_mono t c _ hD (by omega))
            (by omega)
          rfl
        have hlck : liveCount { t with pairs := t.pairs.setD i cur } =
            liveCount t := liveCount_setD_keep t i cur hfree hnf
        have hfw2 : ∃ k2, k2 ≤ n ∧
            ((({ t with pairs := t.pairs.setD i cur } : HashTable)).pairs.getD
              ((i + 1) + k2) noPair).dist = PAIR_FREE := by
          refine ⟨k - 1, by omega, ?_⟩
          have e : (i + 1) + (k - 1) = i + k := by omega
          rw [e]
          show ((t.pairs.setD i cur).getD (i + k) noPair).dist = PAIR_FREE
          rw [getD_setD_ne t.pairs i (i + k) cur noPair (by omega)]
          exact hfr
        obtain ⟨tr2, hres⟩ := ih f { t with pairs := t.pairs.setD i cur }
          { t.pairs.getD i noPair with dist := (t.pairs.getD i noPair).dist + 1 }
          (i + 1) (c + 1) hW2 hD2 (by show (t.pairs.getD i noPair).dist + 1 ≤ c + 1; omega)
          hfw2
          (by show c + 1 + n < t.maxprobes; omega)
          (by show i + 1 + n < (t.pairs.setD i cur).size
              rw [Array.size_setD]
              omega)
          (by omega)
        rcases hres with ⟨t3, s3, hEq, hsh3, hDB3, hnp3, hlc3⟩ |
          ⟨t3, hEq, hsh3, hDB3, hnp3, hlc3⟩
        · refine ⟨i :: tr2, Or.inl ⟨t3, s3,
            by simp only [insertWalk, hstep, hEq], ?_, ?_, ?_, ?_⟩⟩
          · exact sameShape_trans t _ t3 hshape2 hsh3
          · rw [show c + (n + 1) = c + 1 + n by omega]
            exact hDB3
          · exact hnp3.trans rfl
          · rw [hlck] at hlc3
            exact hlc3
        · refine ⟨i :: tr2, Or.inr ⟨t3,
            by simp only [insertWalk, hstep, hEq], ?_, ?_, ?_, ?_⟩⟩
          · exact sameShape_trans t _ t3 hshape2 hsh3
          · rw [show c + (n + 1) = c + 1 + n by omega]
            exact hDB3
          · exact hnp3.trans rfl
          · rw [hlck] at hlc3
            exact hlc3
      · -- no swap: duplicate check, then continue
        have hstep0 : insertStep t cur i =
            insertStepPost t (t.pairs.getD i noPair) cur t.maxprobes :=
          insertStep_not_free_no_swap t cur i hfree hswap
        by_cases hdup : (t.pairs.getD i noPair).dist = cur.dist ∧
            (t.pairs.getD i noPair).key = cur.key
        · have hstep : insertStep t cur i = .dup := by
            rw [hstep0]
            apply insertStepPost_dup
            · show ¬ cur.dist ≥ t.maxprobes
              omega
            · exact hdup
          refine ⟨[i], Or.inr ⟨t, by simp only [insertWalk, hstep],
            sameShape_refl t, DBound_mono t c _ hD (by omega), rfl, rfl⟩⟩
        · have hstep : insertStep t cur i = .next t cur := by
            rw [hstep0]
            apply insertStepPost_next
            · show ¬ cur.dist ≥ t.maxprobes
              omega
            · exact hdup
          have hfw2 : ∃ k2, k2 ≤ n ∧
              ((t.pairs.getD ((i + 1) + k2) noPair).dist = PAIR_FREE) := by
            refine ⟨k - 1, by omega, ?_⟩
            have e : (i + 1) + (k - 1) = i + k := by omega
            rw [e]
            exact hfr
          obtain ⟨tr2, hres⟩ := ih f t { cur with dist := cur.dist + 1 }
            (i + 1) (c + 1) hW (DBound_mono t c _ hD (by omega))
            (by show cur.dist + 1 ≤ c + 1; omega)
            hfw2
            (by show c + 1 + n < t.maxprobes; omega)
            (by omega)
            (by omega)
          rcases hres with ⟨t3, s3, hEq, hsh3, hDB3, hnp3, hlc3⟩ |
            ⟨t3, hEq, hsh3, hDB3, hnp3, hlc3⟩
          · refine ⟨i :: tr2, Or.inl ⟨t3, s3,
              by simp only [insertWalk, hstep, hEq], hsh3, ?_, hnp3, hlc3⟩⟩
            rw [show c + (n + 1) = c + 1 + n by omega]
            exact hDB3
          · refine ⟨i :: tr2, Or.inr ⟨t3,
              by simp only [insertWalk, hstep, hEq], hsh3, ?_, hnp3, hlc3⟩⟩
            rw [show c + (n + 1) = c + 1 + n by omega]
            exact hDB3

theorem go_flat (E : Nat) (t : HashTable) (cur : Pair) (seeds : List Nat)
    (j : Nat) (hG : GoodTable E t) (hR : Rebuilt E t j)
    (hlc : liveCount t ≤ j) (hjE : j + 1 ≤ E)
    (hb : resizeBudget E t = 0) (hd : cur.dist = 0) :
    ∃ r t', run 1 (.go t cur seeds) = some (.insR r t' seeds) ∧
      GoodTable E t' ∧ resizeBudget E t' = 0 ∧ Rebuilt E t' (j + 1) ∧
      liveCount t' ≤ j + 1 := by
  obtain ⟨hW, hI, hm1, hhr⟩ := hG
  obtain ⟨hDB, hlcn, hnpj⟩ := hR
  have hBmp : E * E + 2 * E + 2 ≤ t.maxprobes := by
    unfold resizeBudget at hb
    omega
  have hmul : E * j ≤ E * E := Nat.mul_le_mul_left E (by omega)
  have hsz1 : 1 ≤ t.size := hI.2
  have hhome : homeIndex t cur.key < t.size := Nat.mod_lt _ (by omega)
  have hps : t.pairs.size = t.size + t.maxprobes := by
    have w1 := hW.1
    have w2 := hW.2.1
    omega
  obtain ⟨tr, hres⟩ := insertWalk_flat j (t.maxprobes + 2) t cur
    (homeIndex t cur.key) (E * j) hW hDB (by omega)
    (free_within t j hlc (homeIndex t cur.key))
    (by omega) (by omega) (by omega)
  rcases hres with ⟨t3, s3, hEq, hsh3, hDB3, hnp3, hlc3⟩ |
    ⟨t3, hEq, hsh3, hDB3, hnp3, hlc3⟩
  · refine ⟨some s3, t3, ?_, sameShape_GoodTable E t t3 hsh3 ⟨hW, hI, hm1, hhr⟩,
      ?_, ⟨?_, ?_, ?_⟩, ?_⟩
    · rw [show (1 : Nat) = 0 + 1 from rfl, run_go, hEq]
    · rw [sameShape_budget E t t3 hsh3]
      exact hb
    · apply DBound_mono t3 _ _ hDB3
      rw [Nat.mul_succ]
      omega
    · omega
    · omega
    · omega
  · refine ⟨none, t3, ?_, sameShape_GoodTable E t t3 hsh3 ⟨hW, hI, hm1, hhr⟩,
      ?_, ⟨?_, ?_, ?_⟩, ?_⟩
    · rw [show (1 : Nat) = 0 + 1 from rfl, run_go, hEq]
    · rw [sameShape_budget E t t3 hsh3]
      exact hb
    · apply DBound_mono t3 _ _ hDB3
      rw [Nat.mul_succ]
      omega
    · omega
    · omega
    · omega

theorem ins_flat (E : Nat) (t : HashTable) (cur : Pair) (seeds : List Nat)
    (j : Nat) (hG : GoodTable E t) (hR : Rebuilt E t j)
    (hlc : liveCount t ≤ j) (hjE : j + 1 ≤ E)
    (hb : resizeBudget E t = 0) (hd : cur.dist = 0) :
    ∃ r t', run 2 (.ins t cur seeds) = some (.insR r t' seeds) ∧
      GoodTable E t' ∧ resizeBudget E t' = 0 ∧ Rebuilt E t' (j + 1) ∧
      liveCount t' ≤ j + 1 := by
  have hBmx : E + 1 ≤ t.maxpairs := by
    unfold resizeBudget at hb
    omega
  have hpre : ¬ t.numpairs ≥ t.maxpairs := by
    have := hR.2.2
    omega
  obtain ⟨r, t', hrun, hG', hb', hR', hlc'⟩ :=
    go_flat E t cur seeds j hG hR hlc hjE hb hd
  refine ⟨r, t', ?_, hG', hb', hR', hlc'⟩
  rw [show (2 : Nat) = 1 + 1 from rfl, run_ins, if_neg hpre]
  exact hrun

theorem init_step_facts (E : Nat) (t : HashTable) (sd : Nat)
    (hI : TblInv t) (hhr1 : t.maxprobes + 1 < PAIR_RESERVED) :
    WF (hash_table_init (t.size * 2) (t.maxpairs * 2) sd) ∧
    TblInv (hash_table_init (t.size * 2) (t.maxpairs * 2) sd) ∧
    (hash_table_init (t.size * 2) (t.maxpairs * 2) sd).maxprobes =
      t.maxprobes + 1 ∧
    (hash_table_init (t.size * 2) (t.maxpairs * 2) sd).maxpairs =
      t.maxpairs * 2 ∧
    Rebuilt E (hash_table_init (t.size * 2) (t.maxpairs * 2) sd) 0 ∧
    liveCount (hash_table_init (t.size * 2) (t.maxpairs * 2) sd) = 0 := by
  obtain ⟨hIa, hIb⟩ := hI
  have e4 : (hash_table_init (t.size * 2) (t.maxpairs * 2) sd).maxprobes =
      t.maxprobes + 1 := by
    show arch_ilog2 (t.size * 2) = t.maxprobes + 1
    rw [arch_ilog2_double t.size hIb, ← hIa]
  refine ⟨⟨?_, ?_, ?_, ?_⟩, ⟨rfl, by show 1 ≤ t.size * 2; omega⟩, e4, rfl,
    ⟨?_, ?_, ?_⟩, ?_⟩
  · show (Array.mkArray (t.size * 2 + arch_ilog2 (t.size * 2)) noPair).size = _
    rw [Array.size_mkArray]
    rfl
  · rfl
  · show 1 ≤ t.size * 2
    omega
  · rw [e4]
    exact hhr1
  · intro i
    rw [init_getD_free]
    exact Or.inl rfl
  · rw [init_liveCount]
    exact Nat.zero_le _
  · show (0 : Nat) ≤ 0
    exact Nat.le_refl 0
  · exact init_liveCount _ _ _

theorem run_progress (E M : Nat) :
    (∀ t seeds, GoodTable E t → 1 ≤ resizeBudget E t →
      resizeBudget E t ≤ M → liveCount t + 1 ≤ E →
      ∃ f t' seeds', run f (.rsz t seeds) = some (.rszR t' seeds') ∧
        GoodTable E t' ∧ resizeBudget E t' < resizeBudget E t ∧
        (1 ≤ resizeBudget E t' ∨ Rebuilt E t' (liveCount t)) ∧
        liveCount t' ≤ liveCount t) ∧
    (∀ t cur seeds j, GoodTable E t → resizeBudget E t ≤ M →
      (1 ≤ resizeBudget E t ∨ Rebuilt E t j) → liveCount t ≤ j →
      j + 1 ≤ E → cur.dist = 0 →
      ∃ f r t' seeds', run f (.go t cur seeds) = some (.insR r t' seeds') ∧
        GoodTable E t' ∧ resizeBudget E t' ≤ resizeBudget E t ∧
        (1 ≤ resizeBudget E t' ∨ Rebuilt E t' (j + 1)) ∧
        liveCount t' ≤ j + 1) ∧
    (∀ t cur seeds j, GoodTable E t → resizeBudget E t ≤ M →
      (1 ≤ resizeBudget E t ∨ Rebuilt E t j) → liveCount t ≤ j →
      j + 1 ≤ E → cur.dist = 0 →
      ∃ f r t' seeds', run f (.ins t cur seeds) = some (.insR r t' seeds') ∧
        GoodTable E t' ∧ resizeBudget E t' ≤ resizeBudget E t ∧
        (1 ≤ resizeBudget E t' ∨ Rebuilt E t' (j + 1)) ∧
        liveCount t' ≤ j + 1) ∧
    (∀ items t seeds j, GoodTable E t → resizeBudget E t ≤ M →
      (1 ≤ resizeBudget E t ∨ Rebuilt E t j) → liveCount t ≤ j →
      j + items.length ≤ E → (∀ q ∈ items, q.dist = DIST_IDEAL) →
      ∃ f t' seeds', run f (.rlist t seeds items) = some (.rszR t' seeds') ∧
        GoodTable E t' ∧ resizeBudget E t' ≤ resizeBudget E t ∧
        (1 ≤ resizeBudget E t' ∨ Rebuilt E t' (j + items.length)) ∧
        liveCount t' ≤ j + items.length) := by
  induction M using Nat.strong_induction_on with
  | _ M ih =>
  have hRsz : ∀ t seeds, GoodTable E t → 1 ≤ resizeBudget E t →
      resizeBudget E t ≤ M → liveCount t + 1 ≤ E →
      ∃ f t' seeds', run f (.rsz t seeds) = some (.rszR t' seeds') ∧
        GoodTable E t' ∧ resizeBudget E t' < resizeBudget E t ∧
        (1 ≤ resizeBudget E t' ∨ Rebuilt E t' (liveCount t)) ∧
        liveCount t' ≤ liveCount t := by
    intro t seeds hG hb1 hbM hlcE
    obtain ⟨hW, hI, hm1, hhr⟩ := hG
    obtain ⟨hW0, hI0, e4, e5, hR0, hlc0⟩ :=
      init_step_facts E t (seeds.headD 0) hI (by omega)
    have hbud0 : resizeBudget E (hash_table_init (t.size * 2)
        (t.maxpairs * 2) (seeds.headD 0)) + 1 ≤ resizeBudget E t := by
      unfold resizeBudget at hb1 ⊢
      omega
    have hm10 : 1 ≤ (hash_table_init (t.size * 2) (t.maxpairs * 2)
        (seeds.headD 0)).maxpairs := by
      rw [e5]
      omega
    have hG0 : GoodTable E (hash_table_init (t.size * 2) (t.maxpairs * 2)
        (seeds.headD 0)) := by
      refine ⟨hW0, hI0, hm10, ?_⟩
      rw [e4]
      omega
    have hlen : (liveItems t).length = liveCount t := rfl
    obtain ⟨f1, t', s', hrun1, hG', hble, hdisj, hlc'⟩ :=
      (ih (resizeBudget E (hash_table_init (t.size * 2) (t.maxpairs * 2)
        (seeds.headD 0))) (by omega)).2.2.2
        (liveItems t) (hash_table_init (t.size * 2) (t.maxpairs * 2)
          (seeds.headD 0)) seeds.tail 0 hG0 (Nat.le_refl _)
        (Or.inr hR0) (by omega) (by omega) (liveItems_dist0 t)
    refine ⟨f1 + 1, t', s', ?_, hG', by omega, ?_, by omega⟩
    · rw [run_rsz]
      exact hrun1
    · rcases hdisj with h | h
      · exact Or.inl h
      · right
        rw [Nat.zero_add] at h
        exact h
  have hGo : ∀ t cur seeds j, GoodTable E t → resizeBudget E t ≤ M →
      (1 ≤ resizeBudget E t ∨ Rebuilt E t j) → liveCount t ≤ j →
      j + 1 ≤ E → cur.dist = 0 →
      ∃ f r t' seeds', run f (.go t cur seeds) = some (.insR r t' seeds') ∧
        GoodTable E t' ∧ resizeBudget E t' ≤ resizeBudget E t ∧
        (1 ≤ resizeBudget E t' ∨ Rebuilt E t' (j + 1)) ∧
        liveCount t' ≤ j + 1 := by
    intro t cur seeds j hG hbM hdj hlc hjE hd
    by_cases hb0 : resizeBudget E t = 0
    · rcases hdj with h1 | hR
      · omega
      · obtain ⟨r, t', hrun, hG', hb', hR', hlc'⟩ :=
          go_flat E t cur seeds j hG hR hlc hjE hb0 hd
        exact ⟨1, r, t', seeds, hrun, hG', by omega, Or.inr hR', hlc'⟩
    · have hb1 : 1 ≤ resizeBudget E t := by omega
      obtain ⟨res, tr, hw⟩ := insertWalk_total (t.maxprobes + 2) t cur
        (homeIndex t cur.key) (by omega) (by omega)
      obtain ⟨hpl, hdp, hnr⟩ := insertWalk_posts (t.maxprobes + 2) t cur
        (homeIndex t cur.key) res tr hG.1 (by omega) hw
      cases res with
      | placed t2 s =>
        obtain ⟨x1, x2, x3⟩ := hpl t2 s rfl
        refine ⟨1, some s, t2, seeds, ?_, sameShape_GoodTable E t t2 x1 hG,
          le_of_eq (sameShape_budget E t t2 x1), ?_, by omega⟩
        · rw [show (1 : Nat) = 0 + 1 from rfl, run_go, hw]
        · left
          rw [sameShape_budget E t t2 x1]
          omega
      | dup t2 =>
        obtain ⟨x1, x2, x3⟩ := hdp t2 rfl
        refine ⟨1, none, t2, seeds, ?_, sameShape_GoodTable E t t2 x1 hG,
          le_of_eq (sameShape_budget E t t2 x1), ?_, by omega⟩
        · rw [show (1 : Nat) = 0 + 1 from rfl, run_go, hw]
        · left
          rw [sameShape_budget E t t2 x1]
          omega
      | needResize t2 c2 =>
        obtain ⟨x1, x2, x3⟩ := hnr t2 c2 rfl
        have hG2 : GoodTable E t2 := sameShape_GoodTable E t t2 x1 hG
        have hbud2 : resizeBudget E t2 = resizeBudget E t :=
          sameShape_budget E t t2 x1
        obtain ⟨f2, t3, s3, hrun2, hG3, hb3lt, hdisj3, hlc3⟩ :=
          hRsz t2 seeds hG2 (by omega) (by omega) (by omega)
        obtain ⟨f4, r4, t4, s4, hrun4, hG4, hb4, hdisj4, hlc4⟩ :=
          (ih (resizeBudget E t3) (by omega)).2.1 t3
            { c2 with dist := DIST_IDEAL } s3 j hG3 (Nat.le_refl _)
            (by rcases hdisj3 with h | h
                · exact Or.inl h
                · exact Or.inr (Rebuilt_mono E t3 _ j h (by omega)))
            (by omega) hjE rfl
        have hr2m : run (max f2 f4) (.rsz t2 seeds) = some (.rszR t3 s3) :=
          run_mono_le f2 (max f2 f4) _ _ (by omega) hrun2
        have hr4m : run (max f2 f4)
            (.go t3 { c2 with dist := DIST_IDEAL } s3) =
            some (.insR r4 t4 s4) :=
          run_mono_le f4 (max f2 f4) _ _ (by omega) hrun4
        refine ⟨max f2 f4 + 1, r4, t4, s4, ?_, hG4, by omega, hdisj4,
          by omega⟩
        rw [run_go]
        simp only [hw, hr2m, hr4m]
  have hIns : ∀ t cur seeds j, GoodTable E t → resizeBudget E t ≤ M →
      (1 ≤ resizeBudget E t ∨ Rebuilt E t j) → liveCount t ≤ j →
      j + 1 ≤ E → cur.dist = 0 →
      ∃ f r t' seeds', run f (.ins t cur seeds) = some (.insR r t' seeds') ∧
        GoodTable E t' ∧ resizeBudget E t' ≤ resizeBudget E t ∧
        (1 ≤ resizeBudget E t' ∨ Rebuilt E t' (j + 1)) ∧
        liveCount t' ≤ j + 1 := by
    intro t cur seeds j hG hbM hdj hlc hjE hd
    by_cases hp : t.numpairs ≥ t.maxpairs
    · have hb1 : 1 ≤ resizeBudget E t := by
        rcases hdj with h | hR
        · exact h
        · by_contra hc
          have hbz : resizeBudget E t = 0 := by omega
          have hBmx : E + 1 ≤ t.maxpairs := by
            unfold resizeBudget at hbz
            omega
          have hnp := hR.2.2
          omega
      obtain ⟨f2, t3, s3, hrun2, hG3, hb3lt, hdisj3, hlc3⟩ :=
        hRsz t seeds hG hb1 hbM (by omega)
      obtain ⟨f4, r4, t4, s4, hrun4, hG4, hb4, hdisj4, hlc4⟩ :=
        (ih (resizeBudget E t3) (by omega)).2.1 t3 cur s3 j hG3
          (Nat.le_refl _)
          (by rcases hdisj3 with h | h
              · exact Or.inl h
              · exact Or.inr (Rebuilt_mono E t3 _ j h hlc))
          (by omega) hjE hd
      have hr2m : run (max f2 f4) (.rsz t seeds) = some (.rszR t3 s3) :=
        run_mono_le f2 (max f2 f4) _ _ (by omega) hrun2
      have hr4m : run (max f2 f4) (.go t3 cur s3) =
          some (.insR r4 t4 s4) :=
        run_mono_le f4 (max f2 f4) _ _ (by omega) hrun4
      refine ⟨max f2 f4 + 1, r4, t4, s4, ?_, hG4, by omega, hdisj4, hlc4⟩
      rw [run_ins, if_pos hp]
      simp only [hr2m, hr4m]
    · obtain ⟨f4, r4, t4, s4, hrun4, hG4, hb4, hdisj4, hlc4⟩ :=
        hGo t cur seeds j hG hbM hdj hlc hjE hd
      refine ⟨f4 + 1, r4, t4, s4, ?_, hG4, hb4, hdisj4, hlc4⟩
      rw [run_ins, if_neg hp]
      exact hrun4
  have hRlist : ∀ items t seeds j, GoodTable E t → resizeBudget E t ≤ M →
      (1 ≤ resizeBudget E t ∨ Rebuilt E t j) → liveCount t ≤ j →
      j + items.length ≤ E → (∀ q ∈ items, q.dist = DIST_IDEAL) →
      ∃ f t' seeds', run f (.rlist t seeds items) = some (.rszR t' seeds') ∧
        GoodTable E t' ∧ resizeBudget E t' ≤ resizeBudget E t ∧
        (1 ≤ resizeBudget E t' ∨ Rebuilt E t' (j + items.length)) ∧
        liveCount t' ≤ j + items.length := by
    intro items
    induction items with
    | nil =>
      intro t seeds j hG hbM hdj hlc hjE hdists
      refine ⟨1, t, seeds, run_rlist_nil 0 t seeds, hG, Nat.le_refl _,
        ?_, ?_⟩
      · simp only [List.length_nil, Nat.add_zero]
        exact hdj
      · simp only [List.length_nil, Nat.add_zero]
        exact hlc
    | cons q rest ihq =>
      intro t seeds j hG hbM hdj hlc hjE hdists
      have hjE1 : j + 1 ≤ E := by
        simp only [List.length_cons] at hjE
        omega
      obtain ⟨f1, r1, t1, s1, hrun1, hG1, hb1, hdisj1, hlc1⟩ :=
        hIns t q seeds j hG hbM hdj hlc hjE1
          (hdists q (List.mem_cons_self q rest))
      obtain ⟨f2, t2, s2, hrun2, hG2, hb2, hdisj2, hlc2⟩ :=
        ihq t1 s1 (j + 1) hG1 (by omega) hdisj1 hlc1
          (by simp only [List.length_cons] at hjE; omega)
          (fun q2 hq2 => hdists q2 (List.mem_cons_of_mem q hq2))
      have hr1m : run (max f1 f2) (.ins t q seeds) =
          some (.insR r1 t1 s1) :=
        run_mono_le f1 (max f1 f2) _ _ (by omega) hrun1
      have hr2m : run (max f1 f2) (.rlist t1 s1 rest) =
          some (.rszR t2 s2) :=
        run_mono_le f2 (max f1 f2) _ _ (by omega) hrun2
      refine ⟨max f1 f2 + 1, t2, s2, ?_, hG2, by omega, ?_, ?_⟩
      · rw [run_rlist_cons]
        simp only [hr1m, hr2m]
      · rcases hdisj2 with h | h
        · exact Or.inl h
        · right
          rw [show j + (q :: rest).length = j + 1 + rest.length by
            simp only [List.length_cons]; omega]
          exact h
      · rw [show j + (q :: rest).length = j + 1 + rest.length by
          simp only [List.length_cons]; omega]
        exact hlc2
  exact ⟨hRsz, hGo, hIns, hRlist⟩

theorem rsz_top (E : Nat) (t : HashTable) (seeds : List Nat)
    (hW : WF t) (hI : TblInv t) (hm1 : 1 ≤ t.maxpairs)
    (hhr : t.maxprobes + resizeBudget E t + 4 < PAIR_RESERVED)
    (hlcE : liveCount t + 1 ≤ E) :
    ∃ f t' seeds', run f (.rsz t seeds) = some (.rszR t' seeds') ∧
      GoodTable E t' ∧ resizeBudget E t' ≤ resizeBudget E t ∧
      (1 ≤ resizeBudget E t' ∨ Rebuilt E t' (liveCount t)) ∧
      liveCount t' ≤ liveCount t := by
  obtain ⟨hW0, hI0, e4, e5, hR0, hlc0⟩ :=
    init_step_facts E t (seeds.headD 0) hI (by omega)
  have hbud0 : resizeBudget E (hash_table_init (t.size * 2)
      (t.maxpairs * 2) (seeds.headD 0)) ≤ resizeBudget E t := by
    unfold resizeBudget
    omega
  have hm10 : 1 ≤ (hash_table_init (t.size * 2) (t.maxpairs * 2)
      (seeds.headD 0)).maxpairs := by
    rw [e5]
    omega
  have hG0 : GoodTable E (hash_table_init (t.size * 2) (t.maxpairs * 2)
      (seeds.headD 0)) := by
    refine ⟨hW0, hI0, hm10, ?_⟩
    rw [e4]
    omega
  have hlen : (liveItems t).length = liveCount t := rfl
  obtain ⟨f1, t', s', hrun1, hG', hble, hdisj, hlc'⟩ :=
    (run_progress E (resizeBudget E (hash_table_init (t.size * 2)
      (t.maxpairs * 2) (seeds.headD 0)))).2.2.2
      (liveItems t) (hash_table_init (t.size * 2) (t.maxpairs * 2)
        (seeds.headD 0)) seeds.tail 0 hG0 (Nat.le_refl _)
      (Or.inr hR0) (by omega) (by omega) (liveItems_dist0 t)
  refine ⟨f1 + 1, t', s', ?_, hG', by omega, ?_, by omega⟩
  · rw [run_rsz]
    exact hrun1
  · rcases hdisj with h | h
    · exact Or.inl h
    · right
      rw [Nat.zero_add] at h
      exact h

/-- C9 (amended): each resize strictly increases the probe bound (the
`⌊log2⌋` of the doubled capacity exceeds the old one, and nested resizes
during re-insertion only increase it further), and insert's
resize-and-restart loop — which after a probe-bound-triggered resize
restarts the walk at `d = 0` with the pair *currently being carried*,
which after a Robin Hood displacement swap is a displaced entry rather
than the original (key, value) pair (see
`c9_restart_carries_displaced_pair`) — terminates for every input: for
every well-formed table whose probe bound is `⌊log2 capacity⌋`, whose
occupancy threshold is positive, and whose probe bound is not within
`(liveCount+4)²` of the status sentinels (every table the C API can
actually build satisfies this by an astronomical margin), some fuel makes
the insert call return a result. The termination argument is the one the
claim appeals to: each resize strictly increases the probe bound, so
after finitely many resizes every probe walk ends in a placement or a
duplicate and the occupancy pre-check can no longer fire. -/
theorem c9_resize_restart_terminates :
    (∀ (f : Nat) (t t' : HashTable) (seeds seeds' : List Nat), TblInv t →
      hash_table_resize f t seeds = some (t', seeds') →
      t.maxprobes < t'.maxprobes) ∧
    (∀ (t : HashTable) (cur : Pair) (seeds : List Nat),
      WF t → TblInv t → 1 ≤ t.maxpairs → cur.dist = DIST_IDEAL →
      t.maxprobes + (liveCount t + 4) * (liveCount t + 4) < PAIR_RESERVED →
      ∃ (f : Nat) (r : Option Nat) (t' : HashTable) (seeds' : List Nat),
        hash_table_insert f t cur seeds = some (r, t', seeds')) := by
  constructor
  · intro f t t' seeds seeds' hI h
    unfold hash_table_resize at h
    cases hr : run f (.rsz t seeds) with
    | none => rw [hr] at h; cases h
    | some res =>
      rw [hr] at h
      cases res with
      | insR r1 t3 s3 => cases h
      | rszR t3 s3 =>
        injection h with h'
        injection h' with h1 h2
        subst h1
        exact ((run_tblInv_mono f).2.2.1 t seeds t3 s3 hr hI).2
  · intro t cur seeds hW hI hm1 hd hhr
    have hd0 : cur.dist = 0 := hd
    have hexp : (liveCount t + 4) * (liveCount t + 4) =
        (liveCount t + 1) * (liveCount t + 1) + 6 * (liveCount t + 1) + 9 := by
      ring
    have hbd : resizeBudget (liveCount t + 1) t ≤
        (liveCount t + 1) * (liveCount t + 1) + 3 * (liveCount t + 1) + 3 := by
      unfold resizeBudget
      omega
    have hhr4 : t.maxprobes + resizeBudget (liveCount t + 1) t + 4 <
        PAIR_RESERVED := by omega
    have hG : GoodTable (liveCount t + 1) t := ⟨hW, hI, hm1, by omega⟩
    by_cases hp : t.numpairs ≥ t.maxpairs
    · obtain ⟨f2, t3, s3, hrun2, hG3, hb3, hdisj3, hlc3⟩ :=
        rsz_top (liveCount t + 1) t seeds hW hI hm1 hhr4 (Nat.le_refl _)
      obtain ⟨f4, r4, t4, s4, hrun4, -, -, -, -⟩ :=
        (run_progress (liveCount t + 1)
          (resizeBudget (liveCount t + 1) t3)).2.1
          t3 cur s3 (liveCount t) hG3 (Nat.le_refl _) hdisj3 hlc3
          (Nat.le_refl _) hd0
      have hr2m : run (max f2 f4) (.rsz t seeds) = some (.rszR t3 s3) :=
        run_mono_le f2 (max f2 f4) _ _ (by omega) hrun2
      have hr4m : run (max f2 f4) (.go t3 cur s3) =
          some (.insR r4 t4 s4) :=
        run_mono_le f4 (max f2 f4) _ _ (by omega) hrun4
      have hrun : run (max f2 f4 + 1) (.ins t cur seeds) =
          some (.insR r4 t4 s4) := by
        rw [run_ins, if_pos hp]
        simp only [hr2m, hr4m]
      refine ⟨max f2 f4 + 1, r4, t4, s4, ?_⟩
      unfold hash_table_insert
      rw [hrun]
    · by_cases hbz : 1 ≤ resizeBudget (liveCount t + 1) t
      · obtain ⟨f4, r4, t4, s4, hrun4, -, -, -, -⟩ :=
          (run_progress (liveCount t + 1)
            (resizeBudget (liveCount t + 1) t)).2.1
            t cur seeds (liveCount t) hG (Nat.le_refl _) (Or.inl hbz)
            (Nat.le_refl _) (Nat.le_refl _) hd0
        have hrun : run (f4 + 1) (.ins t cur seeds) =
            some (.insR r4 t4 s4) := by
          rw [run_ins, if_neg hp]
          exact hrun4
        refine ⟨f4 + 1, r4, t4, s4, ?_⟩
        unfold hash_table_insert
        rw [hrun]
      · obtain ⟨res, tr, hw⟩ := insertWalk_total (t.maxprobes + 2) t cur
          (homeIndex t cur.key) (by omega) (by omega)
        obtain ⟨hpl, hdp, hnr⟩ := insertWalk_posts (t.maxprobes + 2) t cur
          (homeIndex t cur.key) res tr hW (by omega) hw
        cases res with
        | placed t2 s =>
          have hrun : run 2 (.ins t cur seeds) =
              some (.insR (some s) t2 seeds) := by
            rw [show (2 : Nat) = 1 + 1 from rfl, run_ins, if_neg hp,
              show (1 : Nat) = 0 + 1 from rfl, run_go, hw]
          refine ⟨2, some s, t2, seeds, ?_⟩
          unfold hash_table_insert
          rw [hrun]
        | dup t2 =>
          have hrun : run 2 (.ins t cur seeds) =
              some (.insR none t2 seeds) := by
            rw [show (2 : Nat) = 1 + 1 from rfl, run_ins, if_neg hp,
              show (1 : Nat) = 0 + 1 from rfl, run_go, hw]
          refine ⟨2, none, t2, seeds, ?_⟩
          unfold hash_table_insert
          rw [hrun]
        | needResize t2 c2 =>
          obtain ⟨x1, x2, x3⟩ := hnr t2 c2 rfl
          have hW2 : WF t2 := sameShape_WF t t2 x1 hW
          have hI2 : TblInv t2 := sameShape_TblInv t t2 x1 hI
          have hm12 : 1 ≤ t2.maxpairs := by
            rw [x1.2.2.1]
            exact hm1
          have hbud2 : resizeBudget (liveCount t + 1) t2 =
              resizeBudget (liveCount t + 1) t :=
            sameShape_budget _ t t2 x1
          have hmp2 : t2.maxprobes = t.maxprobes := x1.2.2.2.1
          obtain ⟨f2, t3, s3, hrun2, hG3, hb3, hdisj3, hlc3⟩ :=
            rsz_top (liveCount t + 1) t2 seeds hW2 hI2 hm12
              (by rw [hmp2, hbud2]; exact hhr4) (by omega)
          obtain ⟨f4, r4, t4, s4, hrun4, -, -, -, -⟩ :=
            (run_progress (liveCount t + 1)
              (resizeBudget (liveCount t + 1) t3)).2.1
              t3 { c2 with dist := DIST_IDEAL } s3 (liveCount t) hG3
              (Nat.le_refl _)
              (by rcases hdisj3 with h | h
                  · exact Or.inl h
                  · right
                    rw [x3] at h
                    exact h)
              (by omega) (Nat.le_refl _) rfl
          have hr2m : run (max f2 f4) (.rsz t2 seeds) =
              some (.rszR t3 s3) :=
            run_mono_le f2 (max f2 f4) _ _ (by omega) hrun2
          have hr4m : run (max f2 f4)
              (.go t3 { c2 with dist := DIST_IDEAL } s3) =
              some (.insR r4 t4 s4) :=
            run_mono_le f4 (max f2 f4) _ _ (by omega) hrun4
          have hrun : run (max f2 f4 + 2) (.ins t cur seeds) =
              some (.insR r4 t4 s4) := by
            rw [show max f2 f4 + 2 = (max f2 f4 + 1) + 1 from rfl, run_ins,
              if_neg hp, run_go]
            simp only [hw, hr2m, hr4m]
          refine ⟨max f2 f4 + 2, r4, t4, s4, ?_⟩
          unfold hash_table_insert
          rw [hrun]

/-- Witness for `c9_resize_restart_terminates`: resizing the fresh
capacity-4 table (probe bound 2) yields the capacity-8 table with probe
bound 3, and inserting "a" into the fresh `init(4, 4)` table (well-formed,
positive threshold, no live pairs) terminates with some fuel. -/
theorem c9_resize_restart_terminates_witness :
    (hash_table_init 4 4 0).maxprobes < (hash_table_init 8 8 0).maxprobes ∧
    ∃ (f : Nat) (r : Option Nat) (t' : HashTable) (seeds' : List Nat),
      hash_table_insert f (hash_table_init 4 4 0) (pair_init kA1 1) [] =
        some (r, t', seeds') :=
  ⟨c9_resize_restart_terminates.1 9 (hash_table_init 4 4 0)
      (hash_table_init 8 8 0) [] [] (by decide) (by decide),
    c9_resize_restart_terminates.2 (hash_table_init 4 4 0) (pair_init kA1 1)
      [] (by decide) (by decide) (by decide) rfl (by decide)⟩
